import Mathlib

/-!
Verification of the NVMeSpecSplitter core modules.

Shallow embedding of `src/core/pdf_reader.py` and `src/core/md_converter.py`:
Python ints are modelled as `Int`, Python floats that occur as y-coordinates
are modelled as `Rat` (with `float('inf')` as an explicit constructor of
`YCoord`), Python lists as `List`, Python strings as `String`/`List Char`
(ASCII character classes for `\s` and `\d`).
-/

set_option autoImplicit false

namespace NVMeSpec

/-- Model of the Python float values that occur as `end_y` in the source:
finite reals (modelled as rationals) plus the sentinel `float('inf')`. -/
inductive YCoord where
  | fin (v : ℚ) : YCoord
  | inf : YCoord
deriving DecidableEq, Repr

/-- Embedding of `Section` (src/core/pdf_reader.py, lines 11-23):
title, nesting level, page range and y-coordinate range. -/
structure PdfSection where
  title : String
  level : ℤ
  start_page : ℤ
  end_page : ℤ
  start_y : ℚ := 0
  end_y : YCoord := .inf
deriving DecidableEq, Repr

/-- Embedding of `MergedSection` (src/core/pdf_reader.py, lines 26-30). -/
structure MergedSection where
  parent : PdfSection
  children : List PdfSection := []
deriving DecidableEq, Repr

/-- Embedding of `get_max_level` (src/core/pdf_reader.py, lines 33-37). -/
def get_max_level (sections : List PdfSection) : ℤ :=
  if sections = [] then 0
  else (sections.map (fun s => s.level)).foldl max (sections.map (fun s => s.level)).headI

/-- Loop body of `merge_sections_by_level` (src/core/pdf_reader.py, lines 58-92).
The outer `while` visits every index `i`; a section with `level ≤ split_level`
opens a group whose children are the immediately following sections as long as
each has `level > section.level` and `level > split_level` (the inner `while`
breaks at the first violation); the outer loop then resumes at `i + 1`, so the
absorbed children are re-visited and skipped because their level exceeds
`split_level`. -/
def mergeLoop (sl : ℤ) : List PdfSection → List MergedSection
  | [] => []
  | s :: rest =>
    if s.level ≤ sl then
      ⟨s, rest.takeWhile (fun t => s.level < t.level ∧ sl < t.level)⟩ :: mergeLoop sl rest
    else
      mergeLoop sl rest

/-- Embedding of `merge_sections_by_level` (src/core/pdf_reader.py, lines 40-92).
`split_level = none` models Python `split_level is None`: every section becomes
its own group with no children. -/
def merge_sections_by_level (sections : List PdfSection) (split_level : Option ℤ) :
    List MergedSection :=
  if sections = [] then []
  else
    match split_level with
    | none => sections.map (fun s => ⟨s, []⟩)
    | some sl => mergeLoop sl sections

/-- Concatenation of each group's `[parent] + children` in emission order,
the observation used by the merge-completeness property. -/
def flattenGroups (groups : List MergedSection) : List PdfSection :=
  groups.flatMap (fun g => g.parent :: g.children)

/-- Section used in the C1 witness. -/
def c1wsec : PdfSection := { title := "Ch", level := 1, start_page := 0, end_page := 3 }

/-- Section used in the C1 counterexample: its level (2) exceeds the split level (1). -/
def c1csec : PdfSection := { title := "1.1", level := 2, start_page := 0, end_page := 0 }

/-- Characters treated as whitespace by Python's `str.strip()`, `str.split()`
and the regex class `\s` (ASCII model). -/
def isSpaceChar (c : Char) : Bool :=
  c = ' ' ∨ c = '\t' ∨ c = '\n' ∨ c = '\r' ∨ c = '\x0b' ∨ c = '\x0c'

/-- Characters matched by the regex class `\d` (ASCII model). -/
def isDigitChar (c : Char) : Bool :=
  '0' ≤ c ∧ c ≤ '9'

/-- Python `str.strip()` on a character list: drop whitespace from both ends. -/
def stripL (l : List Char) : List Char :=
  ((l.dropWhile isSpaceChar).reverse.dropWhile isSpaceChar).reverse

/-- Python `str.strip()` on a `String`. -/
def pyStrip (s : String) : String :=
  String.mk (stripL s.data)

/-- One entry of the position-annotated outline returned by
`_get_toc_with_position` (src/core/pdf_reader.py, lines 124-159): nesting
level, title, 0-indexed page, and destination y-coordinate (0.0 when the
destination carries none). -/
structure TocEntry where
  level : ℤ
  title : String
  page : ℤ
  y : ℚ
deriving DecidableEq, Repr

/-- A rectangle as used by the document engine (fitz.Rect). -/
structure Rect where
  x0 : ℚ
  y0 : ℚ
  x1 : ℚ
  y1 : ℚ
deriving DecidableEq, Repr

/-- fitz `Rect.intersects`: true when the geometric intersection is a
non-empty (positive-extent) rectangle. -/
def Rect.intersects (a b : Rect) : Bool :=
  max a.x0 b.x0 < min a.x1 b.x1 ∧ max a.y0 b.y0 < min a.y1 b.y1

/-- One span of a text line as returned by `page.get_text("dict")`. -/
structure TSpan where
  text : String
deriving Repr

/-- One line of a text block as returned by `page.get_text("dict")`. -/
structure TLine where
  spans : List TSpan
deriving Repr

/-- One block as returned by `page.get_text("dict", clip=...)`: its kind
(`type` field, 0 for text), bounding box and lines. -/
structure TBlock where
  btype : ℤ
  bbox : Rect
  lines : List TLine
deriving Repr

/-- One table found by `page.find_tables()`: bounding box plus the raw cell
matrix produced by `table.extract()`. -/
structure PTable where
  bbox : Rect
  cells : List (List String)
deriving Repr

/-- The per-page interface of the Document Source (a fitz page): page
dimensions, the tables found on the page, and the text blocks returned for a
given clip rectangle. -/
structure Page where
  width : ℚ
  height : ℚ
  tables : List PTable
  textDict : Rect → List TBlock

/-- The Document Source (an open fitz document): its pages and its
position-annotated outline. -/
structure Document where
  pages : List Page
  toc : List TocEntry

/-- A page value used only behind the bounds guard of the page loop. -/
def defaultPage : Page := { width := 0, height := 0, tables := [], textDict := fun _ => [] }

/-- Embedding of the `PDFReader.doc` handle: `none` models a reader that was
never opened or was closed (`self.doc is None` / falsy). -/
def Reader := Option Document

/-- Embedding of the `page_count` property (src/core/pdf_reader.py,
lines 119-122): 0 when the document handle is absent. -/
def page_count (r : Reader) : ℤ :=
  match r with
  | none => 0
  | some d => (d.pages.length : ℤ)

/-- Embedding of `get_sections` (src/core/pdf_reader.py, lines 161-213),
recursion over the outline with one-entry lookahead: each section ends where
the next outline entry starts; the last section ends at the last page with
unbounded y. -/
def sectionsOfToc (pageCount : ℤ) : List TocEntry → List PdfSection
  | [] => []
  | [e] =>
    [{ title := pyStrip e.title, level := e.level, start_page := e.page,
       end_page := pageCount - 1, start_y := e.y, end_y := .inf }]
  | e :: e2 :: rest =>
    let ep : ℤ := if e2.page = e.page then e.page else e2.page
    { title := pyStrip e.title, level := e.level, start_page := e.page,
      end_page := ep, start_y := e.y, end_y := .fin e2.y }
      :: sectionsOfToc pageCount (e2 :: rest)

/-- Embedding of `get_sections` (src/core/pdf_reader.py, lines 161-213)
including the closed-document and empty-outline guards. -/
def get_sections (r : Reader) : List PdfSection :=
  match r with
  | none => []
  | some d =>
    if d.toc = [] then
      [{ title := "전체 문서", level := 1, start_page := 0,
         end_page := page_count (some d) - 1, start_y := 0, end_y := .inf }]
    else
      sectionsOfToc (page_count (some d)) d.toc

/-- Header margin constant (src/core/pdf_reader.py, line 7). -/
def HEADER_MARGIN : ℚ := 50

/-- Footer margin constant (src/core/pdf_reader.py, line 8). -/
def FOOTER_MARGIN : ℚ := 50

/-- The per-page vertical clip band of `extract_text`
(src/core/pdf_reader.py, lines 249-265) and the identical valid band of
`extract_tables` (lines 333-345): four cases on whether the page is the start
page, the end page, both, or strictly between. -/
def clipBounds (pageHeight : ℚ) (page_num start_page end_page : ℤ)
    (start_y : ℚ) (end_y : YCoord) : ℚ × ℚ :=
  if page_num = start_page ∧ page_num = end_page then
    (max start_y HEADER_MARGIN,
     match end_y with
     | .fin v => min v (pageHeight - FOOTER_MARGIN)
     | .inf => pageHeight - FOOTER_MARGIN)
  else if page_num = start_page then
    (max start_y HEADER_MARGIN, pageHeight - FOOTER_MARGIN)
  else if page_num = end_page then
    (HEADER_MARGIN,
     match end_y with
     | .fin v => min v (pageHeight - FOOTER_MARGIN)
     | .inf => pageHeight - FOOTER_MARGIN)
  else
    (HEADER_MARGIN, pageHeight - FOOTER_MARGIN)

/-- The clip rectangle handed to the Document Source
(src/core/pdf_reader.py, line 273): full page width, clipped vertical band. -/
def clipRectOf (page : Page) (clip_top clip_bottom : ℚ) : Rect :=
  { x0 := 0, y0 := clip_top, x1 := page.width, y1 := clip_bottom }

/-- Embedding of `_get_table_rects` (src/core/pdf_reader.py, lines 215-226):
bounding boxes of the page's tables lying fully inside the valid band. -/
def get_table_rects (page : Page) (valid_top valid_bottom : ℚ) : List Rect :=
  page.tables.foldl
    (fun acc table =>
      if valid_top ≤ table.bbox.y0 ∧ table.bbox.y1 ≤ valid_bottom then
        acc ++ [table.bbox]
      else acc) []

/-- The text of one line: its spans concatenated with no separator
(src/core/pdf_reader.py, lines 293-295). -/
def lineText (line : TLine) : String :=
  line.spans.foldl (fun s sp => s ++ sp.text) ""

/-- The page-level text parts collected by `extract_text`
(src/core/pdf_reader.py, lines 267-297): non-text blocks are skipped, blocks
intersecting a table rectangle are dropped, and each remaining line whose
text is non-blank is appended. -/
def pageTextParts (page : Page) (clip_top clip_bottom : ℚ) (exclude_tables : Bool) :
    List String :=
  let table_rects := if exclude_tables then get_table_rects page clip_top clip_bottom else []
  let blocks := page.textDict (clipRectOf page clip_top clip_bottom)
  blocks.foldl
    (fun acc block =>
      if block.btype ≠ 0 then acc
      else if table_rects.any (fun tr => block.bbox.intersects tr) then acc
      else
        block.lines.foldl
          (fun acc2 line =>
            if pyStrip (lineText line) ≠ "" then acc2 ++ [lineText line] else acc2)
          acc) []

/-- Python `range(a, b + 1)` over integers. -/
def intRange (a b : ℤ) : List ℤ :=
  (List.range (b + 1 - a).toNat).map (fun (k : ℕ) => a + (k : ℤ))

/-- Embedding of `extract_text` (src/core/pdf_reader.py, lines 228-302):
loop over the page range with a bounds guard, per-page clipping, table
exclusion, and newline joins within and across pages. -/
def extract_text (r : Reader) (start_page end_page : ℤ)
    (start_y : ℚ := 0) (end_y : YCoord := .inf) (exclude_tables : Bool := true) : String :=
  match r with
  | none => ""
  | some d =>
    let text_parts := (intRange start_page end_page).foldl
      (fun acc page_num =>
        if 0 ≤ page_num ∧ page_num < page_count (some d) then
          let page := d.pages.getD page_num.toNat defaultPage
          let cb := clipBounds page.height page_num start_page end_page start_y end_y
          let parts := pageTextParts page cb.1 cb.2 exclude_tables
          if parts ≠ [] then acc ++ [String.intercalate "\n" parts] else acc
        else acc) []
    String.intercalate "\n" text_parts

/-- Embedding of `extract_tables` (src/core/pdf_reader.py, lines 313-353):
loop over the page range with a bounds guard; a table is collected when its
bounding box lies fully inside the page's valid band and its extracted cell
matrix is non-empty. -/
def extract_tables (r : Reader) (start_page end_page : ℤ)
    (start_y : ℚ := 0) (end_y : YCoord := .inf) : List (List (List String)) :=
  match r with
  | none => []
  | some d =>
    (intRange start_page end_page).foldl
      (fun acc page_num =>
        if 0 ≤ page_num ∧ page_num < page_count (some d) then
          let page := d.pages.getD page_num.toNat defaultPage
          page.tables.foldl
            (fun a table =>
              let vb := clipBounds page.height page_num start_page end_page start_y end_y
              if vb.1 ≤ table.bbox.y0 ∧ table.bbox.y1 ≤ vb.2 then
                if table.cells ≠ [] then a ++ [table.cells] else a
              else a) acc
        else acc) []

/-- Modelled from the spec's wording for C6, the top of the vertical band:
on the start page the larger of the section start-y and the header margin,
elsewhere the plain header margin. -/
def clipTopSpec (start_page page_num : ℤ) (start_y : ℚ) : ℚ :=
  if page_num = start_page then max start_y HEADER_MARGIN else HEADER_MARGIN

/-- Modelled from the spec's wording for C6, the bottom of the vertical band:
on the end page the smaller of the section end-y and page height minus the
footer margin (an unbounded end-y meaning page height minus footer margin),
elsewhere page height minus the footer margin. -/
def clipBottomSpec (pageHeight : ℚ) (end_page page_num : ℤ) (end_y : YCoord) : ℚ :=
  if page_num = end_page then
    match end_y with
    | .fin v => min v (pageHeight - FOOTER_MARGIN)
    | .inf => pageHeight - FOOTER_MARGIN
  else pageHeight - FOOTER_MARGIN

/-- A one-page document with no outline, used in the C10 witness. -/
def c10doc : Document := { pages := [defaultPage], toc := [] }

/-- Modelled from the spec's wording for C7, with the blank-line correction:
the page's text parts are, over the text blocks (type 0) inside the clip
rectangle whose bounding box intersects no table region of the clipped band,
the texts of their lines (spans concatenated with no separator) whose text is
non-blank. -/
def pageTextPartsSpec (page : Page) (clip_top clip_bottom : ℚ) (exclude_tables : Bool) :
    List String :=
  let table_rects := if exclude_tables then get_table_rects page clip_top clip_bottom else []
  ((page.textDict (clipRectOf page clip_top clip_bottom)).filter
      (fun block => block.btype = 0 ∧ ¬ table_rects.any (fun tr => block.bbox.intersects tr))).flatMap
    (fun block => (block.lines.map lineText).filter (fun s => pyStrip s ≠ ""))

/-- Modelled from the claim's wording for C7 as stated: every line of every
kept block is appended, including blank ones. -/
def pageTextPartsClaim (page : Page) (clip_top clip_bottom : ℚ) (exclude_tables : Bool) :
    List String :=
  let table_rects := if exclude_tables then get_table_rects page clip_top clip_bottom else []
  ((page.textDict (clipRectOf page clip_top clip_bottom)).filter
      (fun block => block.btype = 0 ∧ ¬ table_rects.any (fun tr => block.bbox.intersects tr))).flatMap
    (fun block => block.lines.map lineText)

/-- The page used in the C7 counterexample: one text block with a non-blank
line and a blank (whitespace-only) line, no tables. -/
def c7page : Page :=
  { width := 200, height := 100, tables := [],
    textDict := fun _ =>
      [{ btype := 0, bbox := { x0 := 0, y0 := 0, x1 := 10, y1 := 10 },
         lines := [{ spans := [{ text := "hello" }] },
                   { spans := [{ text := "   " }] }] }] }

/-- The contiguity relation of the partition invariant: one section's end
boundary is the next section's start boundary. -/
def adjacentSec (a b : PdfSection) : Prop :=
  a.end_page = b.start_page ∧ a.end_y = .fin b.start_y

/-- A five-page document whose single outline entry starts at page 2, y 10,
used for the C2 counterexample and witness. -/
def c2doc : Document :=
  { pages := List.replicate 5 defaultPage,
    toc := [{ level := 1, title := "A", page := 2, y := 10 }] }

/-- Python `str.split()` with no argument: split on whitespace runs, dropping
empty pieces (accumulator holds the current word, reversed). -/
def pySplitGo (cur : List Char) : List Char → List (List Char)
  | [] => if cur = [] then [] else [cur.reverse]
  | c :: rest =>
    if isSpaceChar c then
      if cur = [] then pySplitGo [] rest else cur.reverse :: pySplitGo [] rest
    else pySplitGo (c :: cur) rest

/-- Python `str.split()` on a character list. -/
def pySplitWords (l : List Char) : List (List Char) :=
  pySplitGo [] l

/-- Embedding of `MarkdownConverter._clean_cell` (src/core/md_converter.py,
lines 61-72): a falsy (empty) cell becomes empty; newlines and carriage
returns become spaces; whitespace runs are collapsed by split/join; literal
pipes are escaped; the result is trimmed. -/
def _clean_cell (cell : String) : String :=
  if cell = "" then ""
  else
    let c1 := cell.data.map (fun c => if c = '\n' then ' ' else c)
    let c2 := c1.map (fun c => if c = '\r' then ' ' else c)
    let joined := List.intercalate [' '] (pySplitWords c2)
    let escaped := joined.flatMap (fun c => if c = '|' then ['\\', '|'] else [c])
    String.mk (stripL escaped)

/-- The probe of the empty-column test of `_clean_table`
(src/core/md_converter.py, line 86): an out-of-range or falsy cell probes as
empty, any other cell as its cleaned content. -/
def cellProbe (row : List String) (col : ℕ) : String :=
  if col < row.length ∧ row.getD col "" ≠ "" then _clean_cell (row.getD col "") else ""

/-- A column is empty when every row's probe at that index is empty
(src/core/md_converter.py, lines 83-90). -/
def colEmpty (t : List (List String)) (col : ℕ) : Bool :=
  t.all (fun row => cellProbe row col = "")

/-- The set of empty column indices, taken among the first row's indices
(src/core/md_converter.py, lines 80-90). -/
def emptyCols (t : List (List String)) : List ℕ :=
  (List.range (t.headD []).length).filter (fun col => colEmpty t col)

/-- One row after dropping the empty columns and cleaning the surviving
cells (src/core/md_converter.py, lines 94-99); indices beyond the header
width are never in the empty set and are kept. -/
def cleanRow (ec : List ℕ) (row : List String) : List String :=
  row.enum.filterMap (fun p => if p.1 ∈ ec then none else some (_clean_cell p.2))

/-- The row-collection loop of `_clean_table` (src/core/md_converter.py,
lines 93-101): keep each cleaned row that is non-empty and has a non-empty
cell. -/
def keepRows (ec : List ℕ) (rows : List (List String)) : List (List String) :=
  rows.foldl
    (fun acc row =>
      let cr := cleanRow ec row
      if cr ≠ [] ∧ cr.any (fun c => c ≠ "") then acc ++ [cr] else acc) []

/-- Embedding of `MarkdownConverter._clean_table` (src/core/md_converter.py,
lines 74-103). -/
def _clean_table (t : List (List String)) : List (List String) :=
  if t = [] ∨ t.headD [] = [] then []
  else keepRows (emptyCols t) t

/-- The per-data-row padding and truncation of `table_to_markdown`
(src/core/md_converter.py, lines 126-131): pad with empty cells up to the
header width, then truncate to the header width. -/
def padCells (header row : List String) : List String :=
  (row ++ List.replicate (header.length - row.length) "").take header.length

/-- The rendering part of `table_to_markdown` applied to an already-cleaned
matrix (src/core/md_converter.py, lines 113-133): header line, dashed
separator of header width, and padded/truncated data rows. -/
def renderCleaned (t2 : List (List String)) : String :=
  if t2 = [] ∨ t2.headD [] = [] then ""
  else
    let header := t2.headD []
    let l1 := "| " ++ String.intercalate " | " header ++ " |"
    let l2 := "| " ++ String.intercalate " | " (List.replicate header.length "---") ++ " |"
    let rows := t2.tail.map
      (fun row => "| " ++ String.intercalate " | " (padCells header row) ++ " |")
    String.intercalate "\n" (l1 :: l2 :: rows)

/-- Embedding of `MarkdownConverter.table_to_markdown`
(src/core/md_converter.py, lines 105-133). -/
def table_to_markdown (t : List (List String)) : String :=
  if t = [] ∨ t.headD [] = [] then ""
  else renderCleaned (_clean_table t)

/-- Greedy match of the regex tail `\s*$` in MULTILINE mode: the number of
whitespace characters consumed by `\s*` so that `$` (end of string or before
a newline) matches just after them, preferring the longest such prefix, as
the backtracking engine does.  `none` when no prefix works. -/
def matchTailWs : List Char → Option ℕ
  | [] => some 0
  | c :: rest =>
    if isSpaceChar c then
      match matchTailWs rest with
      | some n => some (n + 1)
      | none => if c = '\n' then some 0 else none
    else none

/-- Attempt of the pattern `^\s*\d+\s*$` (MULTILINE) at a line-start
position: because `\s` and `\d` are disjoint character classes, the engine's
backtracking search is equivalent to taking the maximal whitespace run, then
the maximal (non-empty) digit run, then the greedy `\s*$` tail.  Returns the
match length. -/
def tryMatchAt (l : List Char) : Option ℕ :=
  let w1 := l.takeWhile isSpaceChar
  let r1 := l.dropWhile isSpaceChar
  let d := r1.takeWhile isDigitChar
  let r2 := r1.dropWhile isDigitChar
  if d.length = 0 then none
  else
    match matchTailWs r2 with
    | some w2 => some (w1.length + d.length + w2)
    | none => none

/-- The left-to-right scan of
`re.sub(r'^\s*\d+\s*$', '', text, flags=re.MULTILINE)`
(src/core/md_converter.py, line 35): at every line start the pattern is
attempted; a match is deleted and the scan resumes right after it.  `skip`
counts characters of a match still to be deleted; `atLS` records whether the
current position is a line start (position 0 or preceded by a newline). -/
def subScanGo : List Char → ℕ → Bool → List Char
  | [], _, _ => []
  | c :: rest, k + 1, _ => subScanGo rest k (c = '\n')
  | c :: rest, 0, atLS =>
    if atLS then
      match tryMatchAt (c :: rest) with
      | some n => subScanGo rest (n - 1) (c = '\n')
      | none => c :: subScanGo rest 0 (c = '\n')
    else c :: subScanGo rest 0 (c = '\n')

/-- The scan with no pending deletion. -/
def subScan (l : List Char) (atLS : Bool) : List Char :=
  subScanGo l 0 atLS

/-- Step 1 of `text_to_markdown`: remove standalone page-number lines
(src/core/md_converter.py, line 35).  The scan starts at a line start. -/
def removeDigitLines (l : List Char) : List Char :=
  subScan l true

/-- Python `text.split('\n')` on a character list. -/
def splitNL : List Char → List (List Char)
  | [] => [[]]
  | c :: rest =>
    if c = '\n' then [] :: splitNL rest
    else
      match splitNL rest with
      | [] => [[c]]
      | L :: Ls => (c :: L) :: Ls

/-- Python `'\n'.join(lines)` on character lists. -/
def joinNL : List (List Char) → List Char
  | [] => []
  | [L] => L
  | L :: Ls => L ++ '\n' :: joinNL Ls

/-- The current line at a position: characters up to the next newline. -/
def line0 (l : List Char) : List Char :=
  l.takeWhile (fun c => ¬(c = '\n'))

/-- The remainder from the next newline on (empty when the position is on
the last line). -/
def restAfter (l : List Char) : List Char :=
  l.dropWhile (fun c => ¬(c = '\n'))

/-- The bare title used by the duplicate-title check
(src/core/md_converter.py, line 45): `re.sub(r'^[\d.]+\s*', '', title).strip()`
— when the title starts with a run of digits and dots, that run and the
following whitespace run are removed; then the result is stripped. -/
def bareTitle (title : String) : String :=
  let l := title.data
  let p := l.takeWhile (fun c => isDigitChar c || c = '.')
  if p.length = 0 then pyStrip title
  else String.mk (stripL ((l.drop p.length).dropWhile isSpaceChar))

/-- The blanking loop of the duplicate-title removal
(src/core/md_converter.py, lines 48-51): the first line whose stripped
content equals the target is replaced by an empty line; the loop then
breaks. -/
def blankFirst (target : String) : List (List Char) → List (List Char)
  | [] => []
  | L :: Ls =>
    if pyStrip (String.mk L) = target then [] :: Ls
    else L :: blankFirst target Ls

/-- Step 2 of `text_to_markdown` (src/core/md_converter.py, lines 37-52):
when a non-empty title is supplied and the first non-blank line equals the
bare or the full title, that line is blanked out. -/
def removeTitleDup (l : List Char) : Option String → List Char
  | none => l
  | some t =>
    if t = "" then l
    else
      let lines := splitNL l
      match lines.filter (fun L => pyStrip (String.mk L) ≠ "") with
      | [] => l
      | fl :: _ =>
        let first_line := pyStrip (String.mk fl)
        if first_line = bareTitle t ∨ first_line = t then
          joinNL (blankFirst first_line lines)
        else l

/-- Step 3 of `text_to_markdown` (src/core/md_converter.py, line 55):
`re.sub(r'\n{3,}', '\n\n', text)` — every maximal run of three or more
newlines becomes exactly two.  `k` counts the newlines emitted for the
current run; from the third on they are dropped. -/
def collapseGo (k : ℕ) : List Char → List Char
  | [] => []
  | c :: rest =>
    if c = '\n' then
      if 2 ≤ k then collapseGo (k + 1) rest
      else '\n' :: collapseGo (k + 1) rest
    else c :: collapseGo 0 rest

/-- Embedding of `MarkdownConverter.text_to_markdown`
(src/core/md_converter.py, lines 23-59) on character lists: remove
page-number lines, remove a leading duplicate of the section title, collapse
blank-line runs, and strip the ends. -/
def text_to_markdownL (l : List Char) (title : Option String) : List Char :=
  stripL (collapseGo 0 (removeTitleDup (removeDigitLines l) title))

/-- Embedding of `MarkdownConverter.text_to_markdown`
(src/core/md_converter.py, lines 23-59). -/
def text_to_markdown (text : String) (section_title : Option String := none) : String :=
  String.mk (text_to_markdownL text.data section_title)

/-- A numeric line: its stripped content is a non-empty run of digits.
These are exactly the lines at whose start `^\s*\d+\s*$` matches. -/
def numericLine (L : List Char) : Bool :=
  !(stripL L).isEmpty && (stripL L).all isDigitChar

/-- No line of the text is numeric. -/
def goodAll (l : List Char) : Prop :=
  ∀ L ∈ splitNL l, numericLine L = false

/-- No line of the text except possibly the first is numeric. -/
def goodTail (l : List Char) : Prop :=
  ∀ L ∈ (splitNL l).tail, numericLine L = false

/-- The line-start flag after deleting the characters of `w`: determined by
the last deleted character, or unchanged when nothing was deleted. -/
def flagAfter (w : List Char) (b : Bool) : Bool :=
  match w.getLast? with
  | some c => c = '\n'
  | none => b

/-- Sections of the six-entry scenario outline of the spec (levels 1,2,3,3,2,1). -/
def sChap1 : PdfSection :=
  { title := "Ch1", level := 1, start_page := 0, end_page := 0, start_y := 0, end_y := .fin 5 }

def s11 : PdfSection :=
  { title := "1.1", level := 2, start_page := 0, end_page := 0, start_y := 5, end_y := .fin 6 }

def s111 : PdfSection :=
  { title := "1.1.1", level := 3, start_page := 0, end_page := 3, start_y := 6, end_y := .fin 0 }

def s112 : PdfSection :=
  { title := "1.1.2", level := 3, start_page := 3, end_page := 6, start_y := 0, end_y := .fin 0 }

def s12 : PdfSection :=
  { title := "1.2", level := 2, start_page := 6, end_page := 11, start_y := 0, end_y := .fin 0 }

def sChap2 : PdfSection :=
  { title := "Ch2", level := 1, start_page := 11, end_page := 11, start_y := 0, end_y := .inf }

def scenarioSections : List PdfSection := [sChap1, s11, s111, s112, s12, sChap2]

/-- Whether the text contains three consecutive newlines (the pattern
`\n{3,}` has a match). -/
def hasTriple : List Char → Bool
  | c1 :: c2 :: c3 :: rest =>
    (c1 = '\n' && c2 = '\n' && c3 = '\n') || hasTriple (c2 :: c3 :: rest)
  | _ => false

/-- The length of the text's leading newline run. -/
def leadNL (l : List Char) : ℕ :=
  (l.takeWhile (fun c => c = '\n')).length

theorem flattenGroups_nil : flattenGroups [] = [] := rfl

theorem flattenGroups_cons (g : MergedSection) (gs : List MergedSection) :
    flattenGroups (g :: gs) = g.parent :: (g.children ++ flattenGroups gs) := by
  simp [flattenGroups]

theorem takeWhile_congr_of_mem {α : Type} (p q : α → Bool) (l : List α)
    (h : ∀ a ∈ l, p a = q a) : l.takeWhile p = l.takeWhile q := by
  induction l with
  | nil => rfl
  | cons a t ih =>
    simp only [List.takeWhile_cons, h a (by simp)]
    cases hq : q a with
    | false => rfl
    | true => simp [ih fun b hb => h b (by simp [hb])]

theorem flattenGroups_map_single (l : List PdfSection) :
    flattenGroups (l.map (fun s => ⟨s, []⟩)) = l := by
  induction l with
  | nil => rfl
  | cons s rest ih => simp [flattenGroups_cons, ih]

/-- The groups produced by the merge loop flatten back to the input list with
its maximal leading run of sections deeper than the split level removed. -/
theorem flatten_mergeLoop (sl : ℤ) (l : List PdfSection) :
    flattenGroups (mergeLoop sl l) = l.dropWhile (fun s => decide (sl < s.level)) := by
  induction l with
  | nil => rfl
  | cons s rest ih =>
    by_cases h : s.level ≤ sl
    · rw [mergeLoop, if_pos h, flattenGroups_cons]
      have htw : rest.takeWhile (fun t => decide (s.level < t.level ∧ sl < t.level))
          = rest.takeWhile (fun t => decide (sl < t.level)) := by
        apply takeWhile_congr_of_mem
        intro a _
        by_cases ha : sl < a.level
        · simp [ha, lt_of_le_of_lt h ha]
        · simp [ha]
      rw [List.dropWhile_cons, if_neg (by simpa using h)]
      simp only [htw, ih]
      exact congrArg (s :: ·) (List.takeWhile_append_dropWhile (p := fun t => decide (sl < t.level)) (l := rest))
    · rw [mergeLoop, if_neg h, ih, List.dropWhile_cons,
        if_pos (by simpa using not_le.mp h)]

/-- C1 (amended): for every flat section list whose first section (if any) has
level at most the split level — always the case in unbounded (`none`) mode —
`merge_sections_by_level` puts every input section into exactly one group, and
concatenating each group's parent followed by its children, in emission order,
reconstructs the original input order.  (Without that proviso the code drops a
leading run of sections whose level exceeds the split level.) -/
theorem C1_merge_reconstructs (sections : List PdfSection) (split_level : Option ℤ)
    (h : ∀ sl : ℤ, split_level = some sl → ∀ s ∈ sections.head?, s.level ≤ sl) :
    flattenGroups (merge_sections_by_level sections split_level) = sections := by
  rw [merge_sections_by_level.eq_def]
  by_cases hnil : sections = []
  · simp [hnil, flattenGroups_nil]
  · rw [if_neg hnil]
    match split_level with
    | none => exact flattenGroups_map_single sections
    | some sl =>
      rw [flatten_mergeLoop]
      match sections with
      | s :: rest =>
        have hs : s.level ≤ sl := h sl rfl s (by simp)
        rw [List.dropWhile_cons, if_neg (by simpa using hs)]

/-- Witness for C1: a concrete list whose head satisfies the level proviso. -/
theorem C1_merge_reconstructs_witness :
    flattenGroups (merge_sections_by_level [c1wsec] (some 1)) = [c1wsec] :=
  C1_merge_reconstructs [c1wsec] (some 1)
    (by intro sl hsl s hs
        cases hsl
        have : c1wsec = s := by simpa using hs
        rw [← this]
        decide)

/-- C1 counterexample: a flat list whose first section is deeper than the split
level produces no group at all, so that section appears in no group and the
concatenation of the groups does not reconstruct the input. -/
theorem C1_counterexample :
    merge_sections_by_level [c1csec] (some 1) = []
    ∧ flattenGroups (merge_sections_by_level [c1csec] (some 1)) ≠ [c1csec] := by
  constructor
  · rfl
  · decide

/-- C4: when the document handle is absent (reader never opened, or closed),
every read operation returns an empty result instead of raising:
`extract_text` returns the empty string, `extract_tables` the empty list,
`get_sections` the empty list, and `page_count` returns 0. -/
theorem C4_closed_reader_empty (sp ep : ℤ) (sy : ℚ) (ey : YCoord) (ex : Bool) :
    extract_text (none : Reader) sp ep sy ey ex = ""
    ∧ extract_tables (none : Reader) sp ep sy ey = []
    ∧ get_sections (none : Reader) = []
    ∧ page_count (none : Reader) = 0 :=
  ⟨rfl, rfl, rfl, rfl⟩

/-- C6: for every page, the vertical clip band computed by `extract_text`
agrees with the per-edge description (start-page top = max(start_y, header
margin); end-page bottom = min(end_y, height - footer margin), with an
unbounded end_y treated as height - footer margin; plain margins on the other
edges), and the clip rectangle handed to the Document Source always spans the
full page width. -/
theorem C6_clip_band (h : ℚ) (pn sp ep : ℤ) (sy : ℚ) (ey : YCoord)
    (page : Page) (ct cb : ℚ) :
    clipBounds h pn sp ep sy ey = (clipTopSpec sp pn sy, clipBottomSpec h ep pn ey)
    ∧ (clipRectOf page ct cb).x0 = 0 ∧ (clipRectOf page ct cb).x1 = page.width := by
  refine ⟨?_, rfl, rfl⟩
  by_cases h1 : pn = sp <;> by_cases h2 : pn = ep
  · simp [clipBounds, clipTopSpec, clipBottomSpec, h1, h2, h1.symm.trans h2]
  · simp [clipBounds, clipTopSpec, clipBottomSpec, h1, h2,
      show sp ≠ ep from fun hh => h2 (h1.trans hh)]
  · simp [clipBounds, clipTopSpec, clipBottomSpec, h1, h2,
      show ep ≠ sp from fun hh => h1 (h2.trans hh)]
  · simp [clipBounds, clipTopSpec, clipBottomSpec, h1, h2]

theorem foldl_id_of_mem {β : Type} (f : β → ℤ → β) (l : List ℤ) (acc : β)
    (hf : ∀ a p, p ∈ l → f a p = a) : l.foldl f acc = acc := by
  induction l generalizing acc with
  | nil => rfl
  | cons p t ih =>
    rw [List.foldl_cons, hf acc p (by simp)]
    exact ih acc fun a q hq => hf a q (by simp [hq])

theorem mem_intRange {a b p : ℤ} (h : p ∈ intRange a b) : a ≤ p ∧ p ≤ b := by
  rw [intRange] at h
  obtain ⟨k, hk, hp⟩ := List.mem_map.mp h
  rw [List.mem_range] at hk
  omega

/-- C10: page indices outside [0, page_count) are skipped by the bounds guard
before the document is indexed, so for any integer page range in which no
valid page lies — negative ranges, ranges past the last page, and inverted
ranges (start greater than end) — `extract_text` returns the empty string and
`extract_tables` returns the empty list. -/
theorem C10_out_of_range_pages (r : Reader) (sp ep : ℤ) (sy : ℚ) (ey : YCoord) (ex : Bool)
    (h : ∀ p : ℤ, sp ≤ p → p ≤ ep → p < 0 ∨ page_count r ≤ p) :
    extract_text r sp ep sy ey ex = "" ∧ extract_tables r sp ep sy ey = [] := by
  cases r with
  | none => exact ⟨rfl, rfl⟩
  | some d =>
    have hguard : ∀ p, p ∈ intRange sp ep → ¬(0 ≤ p ∧ p < page_count (some d)) := by
      intro p hp
      obtain ⟨h1, h2⟩ := mem_intRange hp
      rcases h p h1 h2 with h3 | h3 <;> omega
    constructor
    · show String.intercalate "\n" _ = ""
      rw [foldl_id_of_mem _ _ _ (fun a p hp => by rw [if_neg (hguard p hp)])]
      rfl
    · exact foldl_id_of_mem _ _ _ (fun a p hp => by rw [if_neg (hguard p hp)])

/-- Witness for C10: a page range entirely past the end of a one-page
document yields empty text and no tables. -/
theorem C10_out_of_range_pages_witness :
    extract_text (some c10doc) 3 5 0 .inf true = ""
    ∧ extract_tables (some c10doc) 3 5 0 .inf = [] :=
  C10_out_of_range_pages (some c10doc) 3 5 0 .inf true
    (fun p h1 _ => Or.inr (le_trans (show page_count (some c10doc) ≤ 3 by decide) h1))

theorem lines_foldl_eq_filter (lines : List TLine) (acc : List String) :
    lines.foldl
        (fun acc2 line =>
          if pyStrip (lineText line) ≠ "" then acc2 ++ [lineText line] else acc2) acc
      = acc ++ (lines.map lineText).filter (fun s => pyStrip s ≠ "") := by
  induction lines generalizing acc with
  | nil => simp
  | cons a t ih =>
    rw [List.foldl_cons]
    by_cases ha : pyStrip (lineText a) ≠ ""
    · rw [if_pos ha, ih]
      simp [ha]
    · rw [if_neg ha, ih]
      simp [ha]

theorem blocks_foldl_eq_spec (trs : List Rect) (blocks : List TBlock) (acc : List String) :
    blocks.foldl
        (fun acc block =>
          if block.btype ≠ 0 then acc
          else if trs.any (fun tr => block.bbox.intersects tr) then acc
          else
            block.lines.foldl
              (fun acc2 line =>
                if pyStrip (lineText line) ≠ "" then acc2 ++ [lineText line] else acc2)
              acc) acc
      = acc ++ (blocks.filter
            (fun block => block.btype = 0 ∧ ¬ trs.any (fun tr => block.bbox.intersects tr))).flatMap
          (fun block => (block.lines.map lineText).filter (fun s => pyStrip s ≠ "")) := by
  induction blocks generalizing acc with
  | nil => simp
  | cons b t ih =>
    rw [List.foldl_cons, List.filter_cons]
    by_cases hb : b.btype = 0
    · by_cases hi : (trs.any (fun tr => b.bbox.intersects tr)) = true
      · rw [if_neg (by simpa using hb), if_pos hi, ih]
        simp [hb, hi]
      · rw [if_neg (by simpa using hb), if_neg hi, lines_foldl_eq_filter, ih]
        simp [hb, hi, List.append_assoc]
    · rw [if_pos (by simpa using hb), ih]
      simp [hb]

/-- C7 (amended): inside the clip rectangle, text blocks whose bounding box
intersects a table region of the clipped band are dropped entirely, non-text
blocks are skipped, and for every kept block exactly those lines whose text
(spans concatenated with no separator) is non-blank are appended to the page
text, in order; a line whose concatenated text is blank is dropped, contrary
to the claim's "every line". -/
theorem C7_block_filtering (page : Page) (clip_top clip_bottom : ℚ) (exclude_tables : Bool) :
    pageTextParts page clip_top clip_bottom exclude_tables
      = pageTextPartsSpec page clip_top clip_bottom exclude_tables := by
  rw [pageTextParts, pageTextPartsSpec]
  exact blocks_foldl_eq_spec _ _ []

/-- C7 counterexample: a kept block containing a whitespace-only line
contributes only its non-blank line, while the claim as stated ("every line
of the block is appended") would also keep the blank one. -/
theorem C7_counterexample :
    pageTextParts c7page 0 100 true = ["hello"]
    ∧ pageTextPartsClaim c7page 0 100 true = ["hello", "   "]
    ∧ (["hello"] : List String) ≠ ["hello", "   "] :=
  ⟨rfl, rfl, by decide⟩

theorem sectionsOfToc_ne_nil (pc : ℤ) (e : TocEntry) (rest : List TocEntry) :
    sectionsOfToc pc (e :: rest) ≠ [] := by
  cases rest <;> simp [sectionsOfToc]

theorem sectionsOfToc_head (pc : ℤ) (e : TocEntry) (rest : List TocEntry) :
    ((sectionsOfToc pc (e :: rest)).head?).map (fun s => (s.start_page, s.start_y))
      = some (e.page, e.y) := by
  cases rest <;> simp [sectionsOfToc]

theorem sectionsOfToc_last (pc : ℤ) (e : TocEntry) (rest : List TocEntry) :
    ((sectionsOfToc pc (e :: rest)).getLast?).map (fun s => (s.end_page, s.end_y))
      = some (pc - 1, YCoord.inf) := by
  induction rest generalizing e with
  | nil => simp [sectionsOfToc]
  | cons e2 t ih =>
    rw [show sectionsOfToc pc (e :: e2 :: t)
        = { title := pyStrip e.title, level := e.level, start_page := e.page,
            end_page := if e2.page = e.page then e.page else e2.page,
            start_y := e.y, end_y := .fin e2.y } :: sectionsOfToc pc (e2 :: t) from rfl]
    obtain ⟨s', l', hl⟩ := List.exists_cons_of_ne_nil (sectionsOfToc_ne_nil pc e2 t)
    rw [hl, List.getLast?_cons_cons, ← hl]
    exact ih e2

theorem sectionsOfToc_chain (pc : ℤ) (toc : List TocEntry) :
    List.Chain' adjacentSec (sectionsOfToc pc toc) := by
  induction toc with
  | nil => simp [sectionsOfToc]
  | cons e rest ih =>
    cases rest with
    | nil => simp [sectionsOfToc]
    | cons e2 t =>
      rw [show sectionsOfToc pc (e :: e2 :: t)
          = { title := pyStrip e.title, level := e.level, start_page := e.page,
              end_page := if e2.page = e.page then e.page else e2.page,
              start_y := e.y, end_y := .fin e2.y } :: sectionsOfToc pc (e2 :: t) from rfl]
      rw [List.chain'_cons']
      refine ⟨?_, ih⟩
      intro b hb
      rw [Option.mem_def] at hb
      have hh := sectionsOfToc_head pc e2 t
      rw [hb] at hh
      simp only [Option.map_some', Option.some.injEq, Prod.mk.injEq] at hh
      obtain ⟨h1, h2⟩ := hh
      constructor
      · by_cases hpq : e2.page = e.page <;> simp [hpq, h1]
      · rw [h2]

/-- C2 (amended): for every open document with a non-empty outline, the flat
sections produced by `get_sections` have contiguous, non-overlapping ranges
(each section's (end_page, end_y) equals the next section's (start_page,
start_y)), the last section ends at (page_count - 1, +∞), and the first
section starts at the first outline entry's (page, y) — so the union of the
ranges spans from the first outline entry's start position (not, in general,
from (0, 0)) up to (last_page, +∞). -/
theorem C2_sections_contiguous (d : Document) (h : d.toc ≠ []) :
    List.Chain' adjacentSec (get_sections (some d))
    ∧ get_sections (some d) ≠ []
    ∧ ((get_sections (some d)).head?).map (fun s => (s.start_page, s.start_y))
        = (d.toc.head?).map (fun e => (e.page, e.y))
    ∧ ((get_sections (some d)).getLast?).map (fun s => (s.end_page, s.end_y))
        = some (page_count (some d) - 1, YCoord.inf) := by
  obtain ⟨e, rest, hrest⟩ := List.exists_cons_of_ne_nil h
  have hsec : get_sections (some d) = sectionsOfToc (page_count (some d)) d.toc := by
    simp only [get_sections]
    rw [if_neg h]
  rw [hsec, hrest]
  exact ⟨sectionsOfToc_chain _ _, sectionsOfToc_ne_nil _ _ _,
    by rw [sectionsOfToc_head]; simp,
    sectionsOfToc_last _ _ _⟩

/-- C2 counterexample: with a single outline entry at (page 2, y 10) in a
five-page document, the generated sections' union begins at (2, 10), not at
(0, 0) as the claim's spanning condition requires. -/
theorem C2_counterexample :
    ((get_sections (some c2doc)).head?).map (fun s => (s.start_page, s.start_y))
      = some (2, 10)
    ∧ ((2 : ℤ), (10 : ℚ)) ≠ ((0 : ℤ), (0 : ℚ)) := by
  exact ⟨rfl, by decide⟩

/-- Witness for C2 on the concrete five-page document. -/
theorem C2_sections_contiguous_witness :
    List.Chain' adjacentSec (get_sections (some c2doc))
    ∧ get_sections (some c2doc) ≠ []
    ∧ ((get_sections (some c2doc)).head?).map (fun s => (s.start_page, s.start_y))
        = (c2doc.toc.head?).map (fun e => (e.page, e.y))
    ∧ ((get_sections (some c2doc)).getLast?).map (fun s => (s.end_page, s.end_y))
        = some (page_count (some c2doc) - 1, YCoord.inf) :=
  C2_sections_contiguous c2doc (by decide)

/-- C8 counterexample: on the jagged input [["A","B"],["x"]] no column is
empty, both rows survive `_clean_table` unchanged, and the cleaned matrix has
row widths 2 and 1 — it is not rectangular and the short row is neither
padded nor truncated by the cleaning step. -/
theorem C8_counterexample :
    _clean_table [["A", "B"], ["x"]] = [["A", "B"], ["x"]]
    ∧ (_clean_table [["A", "B"], ["x"]]).map List.length = [2, 1]
    ∧ (2 : ℕ) ≠ 1 := by
  refine ⟨by decide, by decide, by decide⟩

/-- C8 (amended): the rows actually emitted by `table_to_markdown` are
rectangular — every data row is padded with empty cells or truncated to
exactly the header row's width by `padCells`; `_clean_table` itself can
return jagged rows. -/
theorem C8_padded_row_width (header row : List String) :
    (padCells header row).length = header.length := by
  rw [padCells, List.length_take, List.length_append, List.length_replicate]
  omega

theorem snd_mem_of_mem_enumFrom {α : Type} :
    ∀ (l : List α) (n : ℕ) (p : ℕ × α), p ∈ l.enumFrom n → p.2 ∈ l := by
  intro l
  induction l with
  | nil => intro n p h; simp [List.enumFrom] at h
  | cons a t ih =>
    intro n p h
    rw [List.enumFrom] at h
    rcases List.mem_cons.mp h with h1 | h1
    · rw [h1]
      exact List.mem_cons_self a t
    · exact List.mem_cons_of_mem a (ih (n + 1) p h1)

theorem mem_cleanRow {ec : List ℕ} {row : List String} {c : String}
    (h : c ∈ cleanRow ec row) : ∃ x ∈ row, c = _clean_cell x := by
  rw [cleanRow] at h
  obtain ⟨⟨i, x⟩, hmem, hx⟩ := List.mem_filterMap.mp h
  by_cases hi : i ∈ ec
  · rw [if_pos hi] at hx
    exact absurd hx (by simp)
  · rw [if_neg hi] at hx
    refine ⟨x, ?_, (Option.some.injEq _ _ ▸ hx).symm⟩
    exact snd_mem_of_mem_enumFrom row 0 (i, x) hmem

/-- C9 (amended): when every header cell cleans to empty, the header row is
dropped during cleaning, and the rendered Markdown is that of the remaining
cleaned data rows — the first surviving data row is rendered as the header,
and the render is the empty string only when no row survives. -/
theorem C9_blank_header (h : List String) (rest : List (List String))
    (hne : h ≠ []) (hblank : ∀ c ∈ h, _clean_cell c = "") :
    _clean_table (h :: rest) = keepRows (emptyCols (h :: rest)) rest
    ∧ table_to_markdown (h :: rest)
        = renderCleaned (keepRows (emptyCols (h :: rest)) rest) := by
  have hguard : ¬((h :: rest : List (List String)) = [] ∨ (h :: rest).headD [] = []) := by
    simp [hne]
  have hdrop : keepRows (emptyCols (h :: rest)) (h :: rest)
      = keepRows (emptyCols (h :: rest)) rest := by
    rw [keepRows, List.foldl_cons]
    have hcr : ¬(cleanRow (emptyCols (h :: rest)) h ≠ []
        ∧ (cleanRow (emptyCols (h :: rest)) h).any (fun c => c ≠ "")) := by
      rintro ⟨-, hany⟩
      rw [List.any_eq_true] at hany
      obtain ⟨c, hc, hcne⟩ := hany
      obtain ⟨x, hx, hcx⟩ := mem_cleanRow hc
      rw [hblank x hx] at hcx
      simp [hcx] at hcne
    rw [if_neg hcr]
    rfl
  have h1 : _clean_table (h :: rest) = keepRows (emptyCols (h :: rest)) rest := by
    rw [_clean_table, if_neg hguard, hdrop]
  exact ⟨h1, by rw [table_to_markdown, if_neg hguard, h1]⟩

/-- Witness for C9: a concrete 2x2 matrix with an entirely blank header. -/
theorem C9_blank_header_witness :
    _clean_table [["", ""], ["a", "b"]]
        = keepRows (emptyCols [["", ""], ["a", "b"]]) [["a", "b"]]
    ∧ table_to_markdown [["", ""], ["a", "b"]]
        = renderCleaned (keepRows (emptyCols [["", ""], ["a", "b"]]) [["a", "b"]]) :=
  C9_blank_header ["", ""] [["a", "b"]] (by decide)
    (by intro c hc; rcases List.mem_cons.mp hc with h1 | h1
        · rw [h1]; rfl
        · rcases List.mem_cons.mp h1 with h2 | h2
          · rw [h2]; rfl
          · simp at h2)

/-- C9 counterexample: a matrix whose header cleans to entirely blank but
whose data row is non-empty is not treated as "no table": the header is
dropped, the data row becomes the rendered header, and the Markdown render
is not the empty string. -/
theorem C9_counterexample :
    _clean_table [["", ""], ["a", "b"]] = [["a", "b"]]
    ∧ table_to_markdown [["", ""], ["a", "b"]] = "| a | b |\n| --- | --- |"
    ∧ table_to_markdown [["", ""], ["a", "b"]] ≠ "" := by
  refine ⟨by decide, rfl, by decide⟩

/-- C5: on the six-entry outline with levels [1,2,3,3,2,1],
`merge_sections_by_level` with split level 1 yields exactly the two groups
(Ch1 with children 1.1, 1.1.1, 1.1.2, 1.2; Ch2 with none), and with split
level 2 exactly the four groups (Ch1; 1.1 with children 1.1.1, 1.1.2; 1.2;
Ch2). -/
theorem C5_merge_scenarios :
    merge_sections_by_level scenarioSections (some 1)
      = [⟨sChap1, [s11, s111, s112, s12]⟩, ⟨sChap2, []⟩]
    ∧ merge_sections_by_level scenarioSections (some 2)
      = [⟨sChap1, []⟩, ⟨s11, [s111, s112]⟩, ⟨s12, []⟩, ⟨sChap2, []⟩] := by
  constructor <;> rfl

theorem not_space_of_digit {c : Char} (h : isDigitChar c = true) : isSpaceChar c = false := by
  cases hs : isSpaceChar c with
  | false => rfl
  | true =>
    exfalso
    rw [isSpaceChar] at hs
    simp only [decide_eq_true_eq] at hs
    rcases hs with rfl | rfl | rfl | rfl | rfl | rfl <;> exact absurd h (by decide)

theorem ne_nl_of_digit {c : Char} (h : isDigitChar c = true) : ¬(c = '\n') := by
  intro hc
  subst hc
  exact absurd h (by decide)

theorem splitNL_ne_nil (l : List Char) : splitNL l ≠ [] := by
  cases l with
  | nil => simp [splitNL]
  | cons c rest =>
    rw [splitNL]
    by_cases h : c = '\n'
    · simp [h]
    · simp only [if_neg h]
      cases splitNL rest <;> simp

theorem splitNL_nl (r : List Char) : splitNL ('\n' :: r) = [] :: splitNL r := by
  rw [splitNL]
  simp

theorem line0_nil : line0 [] = [] := rfl

theorem line0_nl (r : List Char) : line0 ('\n' :: r) = [] := by
  simp [line0]

theorem line0_cons {c : Char} (h : ¬(c = '\n')) (r : List Char) :
    line0 (c :: r) = c :: line0 r := by
  simp [line0, List.takeWhile_cons, h]

theorem restAfter_nil : restAfter [] = [] := rfl

theorem restAfter_nl (r : List Char) : restAfter ('\n' :: r) = '\n' :: r := by
  simp [restAfter, List.dropWhile_cons]

theorem restAfter_cons {c : Char} (h : ¬(c = '\n')) (r : List Char) :
    restAfter (c :: r) = restAfter r := by
  simp [restAfter, List.dropWhile_cons, h]

theorem line0_append_restAfter (l : List Char) : line0 l ++ restAfter l = l :=
  List.takeWhile_append_dropWhile _ _

theorem restAfter_eq_nil_iff (l : List Char) : restAfter l = [] ↔ '\n' ∉ l := by
  rw [restAfter, List.dropWhile_eq_nil_iff]
  constructor
  · intro h hmem
    have := h '\n' hmem
    simp at this
  · intro h x hx
    simp only [decide_eq_true_eq]
    intro hxn
    exact h (hxn ▸ hx)

theorem restAfter_shape (l : List Char) :
    restAfter l = [] ∨ ∃ r, restAfter l = '\n' :: r := by
  cases hr : restAfter l with
  | nil => exact Or.inl rfl
  | cons c r =>
    refine Or.inr ⟨r, ?_⟩
    have := List.head?_dropWhile_not (fun c => ¬(c = '\n')) l
    rw [show l.dropWhile (fun c => ¬(c = '\n')) = restAfter l from rfl, hr] at this
    have hc : c = '\n' := by
      by_contra hne
      simp [hne] at this
    rw [hc]

theorem splitNL_head (l : List Char) : (splitNL l).head? = some (line0 l) := by
  induction l with
  | nil => rfl
  | cons c rest ih =>
    by_cases h : c = '\n'
    · subst h
      rw [splitNL_nl, line0_nl]
      rfl
    · rw [splitNL]
      simp only [if_neg h]
      cases hs : splitNL rest with
      | nil => exact absurd hs (splitNL_ne_nil rest)
      | cons L Ls =>
        rw [hs] at ih
        simp only [List.head?_cons, Option.some.injEq] at ih
        rw [line0_cons h]
        simp [ih]

theorem splitNL_eq_cons (l : List Char) : splitNL l = line0 l :: (splitNL l).tail := by
  cases hs : splitNL l with
  | nil => exact absurd hs (splitNL_ne_nil l)
  | cons L Ls =>
    have := splitNL_head l
    rw [hs] at this
    simp only [List.head?_cons, Option.some.injEq] at this
    simp [this]

theorem line0_mem_splitNL (l : List Char) : line0 l ∈ splitNL l := by
  rw [splitNL_eq_cons l]
  exact List.mem_cons_self _ _

theorem splitNL_cons_tail {c : Char} (h : ¬(c = '\n')) (r : List Char) :
    (splitNL (c :: r)).tail = (splitNL r).tail := by
  rw [splitNL]
  simp only [if_neg h]
  cases hs : splitNL r with
  | nil => exact absurd hs (splitNL_ne_nil r)
  | cons L Ls => simp

theorem splitNL_append_no_nl {u : List Char} (h : '\n' ∉ u) (v : List Char) :
    splitNL (u ++ '\n' :: v) = u :: splitNL v := by
  induction u with
  | nil => simp [splitNL_nl]
  | cons c u' ih =>
    have hc : ¬(c = '\n') := fun hcn => h (hcn ▸ List.mem_cons_self c u')
    have hu' : '\n' ∉ u' := fun hm => h (List.mem_cons_of_mem c hm)
    rw [List.cons_append, splitNL]
    simp only [if_neg hc]
    rw [ih hu']

theorem splitNL_no_nl {u : List Char} (h : '\n' ∉ u) : splitNL u = [u] := by
  induction u with
  | nil => rfl
  | cons c u' ih =>
    have hc : ¬(c = '\n') := fun hcn => h (hcn ▸ List.mem_cons_self c u')
    have hu' : '\n' ∉ u' := fun hm => h (List.mem_cons_of_mem c hm)
    rw [splitNL]
    simp only [if_neg hc]
    rw [ih hu']

theorem nl_not_mem_of_mem_splitNL {l : List Char} {L : List Char} (h : L ∈ splitNL l) :
    '\n' ∉ L := by
  induction l generalizing L with
  | nil =>
    simp only [splitNL, List.mem_singleton] at h
    simp [h]
  | cons c rest ih =>
    by_cases hc : c = '\n'
    · subst hc
      rw [splitNL_nl] at h
      rcases List.mem_cons.mp h with h1 | h1
      · simp [h1]
      · exact ih h1
    · rw [splitNL] at h
      simp only [if_neg hc] at h
      cases hs : splitNL rest with
      | nil => exact absurd hs (splitNL_ne_nil rest)
      | cons L' Ls =>
        rw [hs] at h
        rcases List.mem_cons.mp h with h1 | h1
        · subst h1
          intro hmem
          rcases List.mem_cons.mp hmem with h2 | h2
          · exact hc h2.symm
          · exact ih (hs ▸ List.mem_cons_self L' Ls) h2
        · exact ih (hs ▸ List.mem_cons_of_mem L' h1)

theorem takeWhile_append_all {α : Type} {p : α → Bool} {u : List α}
    (h : ∀ c ∈ u, p c = true) (v : List α) :
    (u ++ v).takeWhile p = u ++ v.takeWhile p := by
  induction u with
  | nil => simp
  | cons c u' ih =>
    rw [List.cons_append, List.takeWhile_cons, if_pos (h c (by simp)), ih fun d hd => h d (by simp [hd])]
    rfl

theorem dropWhile_append_all {α : Type} {p : α → Bool} {u : List α}
    (h : ∀ c ∈ u, p c = true) (v : List α) :
    (u ++ v).dropWhile p = v.dropWhile p := by
  induction u with
  | nil => simp
  | cons c u' ih =>
    rw [List.cons_append, List.dropWhile_cons, if_pos (h c (by simp))]
    exact ih fun d hd => h d (by simp [hd])

theorem stripL_eq_rdrop (l : List Char) :
    stripL l = (l.dropWhile isSpaceChar).rdropWhile isSpaceChar := rfl

theorem rdrop_append_rtake {α : Type} (p : α → Bool) (l : List α) :
    l.rdropWhile p ++ l.rtakeWhile p = l := by
  rw [List.rdropWhile, List.rtakeWhile, ← List.reverse_append, List.takeWhile_append_dropWhile,
    List.reverse_reverse]

theorem stripL_nil : stripL [] = [] := rfl

theorem stripL_all_ws {l : List Char} (h : ∀ c ∈ l, isSpaceChar c = true) : stripL l = [] := by
  rw [stripL_eq_rdrop, List.dropWhile_eq_nil_iff.mpr h]
  rfl

theorem stripL_ws_left {w : List Char} (hw : ∀ c ∈ w, isSpaceChar c = true) (l : List Char) :
    stripL (w ++ l) = stripL l := by
  rw [stripL_eq_rdrop, stripL_eq_rdrop, dropWhile_append_all hw]

theorem rdropWhile_append_ws {w : List Char} (hw : ∀ c ∈ w, isSpaceChar c = true)
    (y : List Char) : (y ++ w).rdropWhile isSpaceChar = y.rdropWhile isSpaceChar := by
  rw [List.rdropWhile, List.rdropWhile, List.reverse_append,
    dropWhile_append_all (fun c hc => hw c (List.mem_reverse.mp hc))]

theorem stripL_ws_right {w : List Char} (hw : ∀ c ∈ w, isSpaceChar c = true) (l : List Char) :
    stripL (l ++ w) = stripL l := by
  rw [stripL_eq_rdrop, stripL_eq_rdrop, List.dropWhile_append]
  by_cases hd : (l.dropWhile isSpaceChar).isEmpty = true
  · rw [if_pos hd, List.dropWhile_eq_nil_iff.mpr hw]
    rw [List.isEmpty_iff] at hd
    rw [hd]
  · rw [if_neg hd]
    exact rdropWhile_append_ws hw _

theorem stripL_digits {d : List Char} (hdd : ∀ c ∈ d, isDigitChar c = true) :
    stripL d = d := by
  rw [stripL_eq_rdrop]
  cases d with
  | nil => rfl
  | cons c d' =>
    have hc : isSpaceChar c = false := not_space_of_digit (hdd c (by simp))
    rw [List.dropWhile_cons, if_neg (by simp [hc])]
    rw [List.rdropWhile_eq_self_iff.mpr]
    intro hl
    have := hdd _ (List.getLast_mem hl)
    simp [not_space_of_digit this]

theorem stripL_ws_digits {w1 d w2 : List Char} (h1 : ∀ c ∈ w1, isSpaceChar c = true)
    (h2 : ∀ c ∈ w2, isSpaceChar c = true) (hdd : ∀ c ∈ d, isDigitChar c = true) :
    stripL (w1 ++ d ++ w2) = d := by
  rw [List.append_assoc, stripL_ws_left h1, stripL_ws_right h2, stripL_digits hdd]

theorem stripL_idem (l : List Char) : stripL (stripL l) = stripL l := by
  rw [stripL_eq_rdrop l]
  cases hz : (l.dropWhile isSpaceChar).rdropWhile isSpaceChar with
  | nil => rfl
  | cons c z' =>
    have hpre : ∃ t, (c :: z') ++ t = l.dropWhile isSpaceChar := by
      have h := List.rdropWhile_prefix isSpaceChar (l := l.dropWhile isSpaceChar)
      rw [hz] at h
      exact h
    obtain ⟨t, ht⟩ := hpre
    have hhead : isSpaceChar c = false := by
      have h := List.head?_dropWhile_not isSpaceChar l
      rw [← ht] at h
      simpa using h
    have hdz : (c :: z').dropWhile isSpaceChar = c :: z' := by
      rw [List.dropWhile_cons, if_neg (by simp [hhead])]
    have hrz : (c :: z').rdropWhile isSpaceChar = c :: z' := by
      rw [List.rdropWhile_eq_self_iff]
      intro hl
      have h := List.rdropWhile_last_not isSpaceChar (l := l.dropWhile isSpaceChar) (by rw [hz]; simp)
      revert h
      simp only [hz]
      intro h
      simpa using h
    rw [stripL_eq_rdrop, hdz, hrz]

theorem stripL_decomp (l : List Char) :
    ∃ w1 w2, (∀ c ∈ w1, isSpaceChar c = true) ∧ (∀ c ∈ w2, isSpaceChar c = true)
      ∧ l = w1 ++ stripL l ++ w2 := by
  refine ⟨l.takeWhile isSpaceChar, (l.dropWhile isSpaceChar).rtakeWhile isSpaceChar,
    fun c hc => List.mem_takeWhile_imp hc, fun c hc => List.mem_rtakeWhile_imp hc, ?_⟩
  rw [stripL_eq_rdrop, List.append_assoc, rdrop_append_rtake,
    List.takeWhile_append_dropWhile]

theorem numericLine_congr {L L' : List Char} (h : stripL L = stripL L') :
    numericLine L = numericLine L' := by
  rw [numericLine, numericLine, h]

theorem numericLine_nil : numericLine [] = false := by decide

theorem numericLine_of_ws_digits {w1 d w2 : List Char} (h1 : ∀ c ∈ w1, isSpaceChar c = true)
    (h2 : ∀ c ∈ w2, isSpaceChar c = true) (hd : d ≠ []) (hdd : ∀ c ∈ d, isDigitChar c = true) :
    numericLine (w1 ++ d ++ w2) = true := by
  rw [numericLine, stripL_ws_digits h1 h2 hdd, Bool.and_eq_true]
  constructor
  · simp [List.isEmpty_iff, hd]
  · exact List.all_eq_true.mpr hdd

theorem matchTailWs_le : ∀ {t : List Char} {n : ℕ}, matchTailWs t = some n → n ≤ t.length := by
  intro t
  induction t with
  | nil =>
    intro n h
    rw [matchTailWs] at h
    simp only [Option.some.injEq] at h
    omega
  | cons c rest ih =>
    intro n h
    rw [matchTailWs] at h
    by_cases hc : isSpaceChar c = true
    · rw [if_pos hc] at h
      cases hm : matchTailWs rest with
      | some m =>
        rw [hm] at h
        simp only [Option.some.injEq] at h
        have := ih hm
        simp only [List.length_cons]
        omega
      | none =>
        rw [hm] at h
        by_cases hnl : c = '\n'
        · rw [if_pos hnl] at h
          simp only [Option.some.injEq] at h
          omega
        · rw [if_neg hnl] at h
          cases h
    · rw [if_neg hc] at h
      cases h

theorem matchTailWs_take_ws : ∀ {t : List Char} {n : ℕ}, matchTailWs t = some n →
    ∀ c ∈ t.take n, isSpaceChar c = true := by
  intro t
  induction t with
  | nil =>
    intro n _ c hc
    simp at hc
  | cons a rest ih =>
    intro n h c hc
    rw [matchTailWs] at h
    by_cases ha : isSpaceChar a = true
    · rw [if_pos ha] at h
      cases hm : matchTailWs rest with
      | some m =>
        rw [hm] at h
        simp only [Option.some.injEq] at h
        subst h
        rw [List.take_succ_cons] at hc
        rcases List.mem_cons.mp hc with h1 | h1
        · rw [h1]; exact ha
        · exact ih hm c h1
      | none =>
        rw [hm] at h
        by_cases hnl : a = '\n'
        · rw [if_pos hnl] at h
          simp only [Option.some.injEq] at h
          subst h
          simp at hc
        · rw [if_neg hnl] at h
          cases h
    · rw [if_neg ha] at h
      cases h

theorem matchTailWs_drop : ∀ {t : List Char} {n : ℕ}, matchTailWs t = some n →
    t.drop n = [] ∨ ∃ r, t.drop n = '\n' :: r := by
  intro t
  induction t with
  | nil =>
    intro n h
    rw [matchTailWs] at h
    simp only [Option.some.injEq] at h
    subst h
    exact Or.inl rfl
  | cons a rest ih =>
    intro n h
    rw [matchTailWs] at h
    by_cases ha : isSpaceChar a = true
    · rw [if_pos ha] at h
      cases hm : matchTailWs rest with
      | some m =>
        rw [hm] at h
        simp only [Option.some.injEq] at h
        subst h
        rw [List.drop_succ_cons]
        exact ih hm
      | none =>
        rw [hm] at h
        by_cases hnl : a = '\n'
        · rw [if_pos hnl] at h
          simp only [Option.some.injEq] at h
          subst h
          subst hnl
          exact Or.inr ⟨rest, rfl⟩
        · rw [if_neg hnl] at h
          cases h
    · rw [if_neg ha] at h
      cases h

theorem matchTailWs_isSome {w : List Char} (hw : ∀ c ∈ w, isSpaceChar c = true)
    {t : List Char} (ht : t = [] ∨ ∃ r, t = '\n' :: r) :
    (matchTailWs (w ++ t)).isSome = true := by
  induction w with
  | nil =>
    rcases ht with rfl | ⟨r, rfl⟩
    · rfl
    · rw [List.nil_append, matchTailWs, if_pos (by decide)]
      cases matchTailWs r with
      | some m => rfl
      | none => rw [if_pos rfl]; rfl
  | cons c w' ih =>
    rw [List.cons_append, matchTailWs, if_pos (hw c (by simp))]
    have h2 := ih (fun d hd => hw d (by simp [hd]))
    cases hm : matchTailWs (w' ++ t) with
    | some m => rfl
    | none =>
      rw [hm] at h2
      simp at h2

theorem tryMatchAt_pos {l : List Char} {n : ℕ} (h : tryMatchAt l = some n) :
    1 ≤ n ∧ n ≤ l.length := by
  simp only [tryMatchAt] at h
  by_cases hd : ((l.dropWhile isSpaceChar).takeWhile isDigitChar).length = 0
  · rw [if_pos hd] at h
    cases h
  · rw [if_neg hd] at h
    cases hm : matchTailWs ((l.dropWhile isSpaceChar).dropWhile isDigitChar) with
    | none =>
      rw [hm] at h
      cases h
    | some w2 =>
      rw [hm] at h
      simp only [Option.some.injEq] at h
      subst h
      have hle := matchTailWs_le hm
      have hlen1 : l.length
          = (l.takeWhile isSpaceChar).length + (l.dropWhile isSpaceChar).length := by
        conv_lhs => rw [← List.takeWhile_append_dropWhile isSpaceChar l]
        rw [List.length_append]
      have hlen2 : (l.dropWhile isSpaceChar).length
          = ((l.dropWhile isSpaceChar).takeWhile isDigitChar).length
            + ((l.dropWhile isSpaceChar).dropWhile isDigitChar).length := by
        conv_lhs => rw [← List.takeWhile_append_dropWhile isDigitChar (l.dropWhile isSpaceChar)]
        rw [List.length_append]
      omega

theorem tryMatchAt_drop {l : List Char} {n : ℕ} (h : tryMatchAt l = some n) :
    l.drop n = [] ∨ ∃ r, l.drop n = '\n' :: r := by
  simp only [tryMatchAt] at h
  by_cases hd : ((l.dropWhile isSpaceChar).takeWhile isDigitChar).length = 0
  · rw [if_pos hd] at h
    cases h
  · rw [if_neg hd] at h
    cases hm : matchTailWs ((l.dropWhile isSpaceChar).dropWhile isDigitChar) with
    | none =>
      rw [hm] at h
      cases h
    | some w2 =>
      rw [hm] at h
      simp only [Option.some.injEq] at h
      subst h
      set A := l.takeWhile isSpaceChar with hA
      set D := (l.dropWhile isSpaceChar).takeWhile isDigitChar with hD
      set R := (l.dropWhile isSpaceChar).dropWhile isDigitChar with hR
      have hsplit : l = A ++ (D ++ R) := by
        rw [hA, hD, hR, List.takeWhile_append_dropWhile, List.takeWhile_append_dropWhile]
      have hdrop : l.drop (A.length + D.length + w2) = R.drop w2 := by
        conv_lhs => rw [hsplit]
        rw [show A.length + D.length + w2 = A.length + (D.length + w2) by omega,
          List.drop_append, List.drop_append]
      rw [hdrop]
      exact matchTailWs_drop hm

theorem takeWhile_ws_of_ws_dollar {t1 : List Char} (h1 : ∀ c ∈ t1, isSpaceChar c = true)
    {t2 : List Char} (h2 : t2 = [] ∨ ∃ r, t2 = '\n' :: r) :
    ∀ c ∈ (t1 ++ t2).takeWhile (fun c => ¬(c = '\n')), isSpaceChar c = true := by
  induction t1 with
  | nil =>
    rcases h2 with rfl | ⟨r, rfl⟩
    · simp
    · intro c hc
      rw [List.nil_append, List.takeWhile_cons] at hc
      simp at hc
  | cons a t1' ih =>
    intro c hc
    by_cases ha : a = '\n'
    · rw [List.cons_append, List.takeWhile_cons] at hc
      simp [ha] at hc
    · rw [List.cons_append, List.takeWhile_cons, if_pos (by simp [ha])] at hc
      rcases List.mem_cons.mp hc with h3 | h3
      · rw [h3]
        exact h1 a (by simp)
      · exact ih (fun d hd => h1 d (by simp [hd])) c h3

theorem not_digit_of_space {c : Char} (h : isSpaceChar c = true) : isDigitChar c = false := by
  cases hd : isDigitChar c with
  | false => rfl
  | true =>
    rw [not_space_of_digit hd] at h
    cases h

theorem takeWhile_digit_ws_dollar {w2 t2 : List Char} (hw2 : ∀ c ∈ w2, isSpaceChar c = true)
    (h2 : t2 = [] ∨ ∃ r, t2 = '\n' :: r) :
    (w2 ++ t2).takeWhile isDigitChar = [] ∧ (w2 ++ t2).dropWhile isDigitChar = w2 ++ t2 := by
  cases w2 with
  | cons a w2' =>
    have ha : isDigitChar a = false := not_digit_of_space (hw2 a (by simp))
    rw [List.cons_append, List.takeWhile_cons, List.dropWhile_cons]
    simp [ha]
  | nil =>
    rcases h2 with rfl | ⟨r, rfl⟩
    · simp
    · rw [List.nil_append, List.takeWhile_cons, List.dropWhile_cons]
      simp [show isDigitChar '\n' = false by decide]

theorem tryMatchAt_of_numericLine {l : List Char} (h : numericLine (line0 l) = true) :
    (tryMatchAt l).isSome = true := by
  obtain ⟨w1, w2, hw1, hw2, hdec⟩ := stripL_decomp (line0 l)
  rw [numericLine, Bool.and_eq_true] at h
  obtain ⟨hne, hall⟩ := h
  rw [List.all_eq_true] at hall
  have hSne : stripL (line0 l) ≠ [] := by
    intro hS
    rw [hS] at hne
    simp at hne
  set S := stripL (line0 l) with hSdef
  obtain ⟨c0, S', hS⟩ := List.exists_cons_of_ne_nil hSne
  have hld : l = (w1 ++ S ++ w2) ++ restAfter l := by
    rw [← hdec, line0_append_restAfter]
  have hra := restAfter_shape l
  have hc0d : isDigitChar c0 = true := hall c0 (by rw [hS]; simp)
  have hdw : l.dropWhile isSpaceChar = S ++ (w2 ++ restAfter l) := by
    conv_lhs => rw [hld]
    rw [List.append_assoc, List.append_assoc, dropWhile_append_all hw1, hS,
      List.cons_append, List.dropWhile_cons,
      if_neg (by simp [not_space_of_digit hc0d]), ← List.cons_append]
  have hSdig : ∀ c ∈ S, isDigitChar c = true := hall
  have hdigits := takeWhile_digit_ws_dollar hw2 hra
  have hd : (l.dropWhile isSpaceChar).takeWhile isDigitChar = S := by
    rw [hdw, takeWhile_append_all hSdig, hdigits.1, List.append_nil]
  have hr2 : (l.dropWhile isSpaceChar).dropWhile isDigitChar = w2 ++ restAfter l := by
    rw [hdw, dropWhile_append_all hSdig, hdigits.2]
  simp only [tryMatchAt]
  rw [hd, hr2]
  rw [if_neg (by rw [hS]; simp)]
  have hsome := matchTailWs_isSome hw2 hra
  cases hm : matchTailWs (w2 ++ restAfter l) with
  | none =>
    rw [hm] at hsome
    cases hsome
  | some m => rfl

theorem line0_append_no_nl {u : List Char} (h : '\n' ∉ u) (v : List Char) :
    line0 (u ++ '\n' :: v) = u := by
  rw [line0, takeWhile_append_all (fun c hc => by
    simp only [decide_eq_true_eq]
    intro hcn
    exact h (hcn ▸ hc))]
  rw [List.takeWhile_cons]
  simp

theorem tryMatchAt_ws_nl {p' : List Char} (hp : ∀ c ∈ p', isSpaceChar c = true) (s : List Char) :
    (tryMatchAt (p' ++ '\n' :: s)).isSome = (tryMatchAt s).isSome := by
  have hdw : (p' ++ '\n' :: s).dropWhile isSpaceChar = s.dropWhile isSpaceChar := by
    rw [dropWhile_append_all hp, List.dropWhile_cons, if_pos (by decide)]
  simp only [tryMatchAt]
  rw [hdw]
  by_cases hd : ((s.dropWhile isSpaceChar).takeWhile isDigitChar).length = 0
  · rw [if_pos hd, if_pos hd]
  · rw [if_neg hd, if_neg hd]
    cases hm : matchTailWs ((s.dropWhile isSpaceChar).dropWhile isDigitChar) with
    | none => rfl
    | some m => rfl

theorem tryMatchAt_none_of_goodAll : ∀ (N : ℕ) (l : List Char), l.length ≤ N → goodAll l →
    tryMatchAt l = none := by
  intro N
  induction N with
  | zero =>
    intro l hl _
    have hln : l = [] := List.length_eq_zero.mp (Nat.le_zero.mp hl)
    subst hln
    rfl
  | succ N ih =>
    intro l hl hg
    by_cases hnl : '\n' ∈ l.takeWhile isSpaceChar
    · set W := l.takeWhile isSpaceChar with hW
      have hWws : ∀ c ∈ W, isSpaceChar c = true := fun c hc => List.mem_takeWhile_imp hc
      have hrne : restAfter W ≠ [] := by
        rw [Ne, restAfter_eq_nil_iff]
        simpa using hnl
      obtain hsh | ⟨q, hq⟩ := restAfter_shape W
      · exact absurd hsh hrne
      have hWdec : W = line0 W ++ '\n' :: q := by
        rw [← hq, line0_append_restAfter]
      have hp'ws : ∀ c ∈ line0 W, isSpaceChar c = true := by
        intro c hc
        exact hWws c (List.Sublist.mem hc (List.takeWhile_sublist _))
      have hp'nl : '\n' ∉ line0 W := by
        intro hmem
        have := List.mem_takeWhile_imp hmem
        simp at this
      have hldec : l = line0 W ++ '\n' :: (q ++ l.dropWhile isSpaceChar) := by
        conv_lhs => rw [← List.takeWhile_append_dropWhile isSpaceChar l, ← hW]
        rw [hWdec, List.append_assoc, List.cons_append, line0_append_no_nl hp'nl]
      have hgs : goodAll (q ++ l.dropWhile isSpaceChar) := by
        intro L hL
        apply hg
        rw [hldec, splitNL_append_no_nl hp'nl]
        exact List.mem_cons_of_mem _ hL
      have hlength : l.length = (line0 W).length + 1 + (q ++ l.dropWhile isSpaceChar).length := by
        conv_lhs => rw [hldec]
        simp [List.length_append]
        omega
      have hlen : (q ++ l.dropWhile isSpaceChar).length ≤ N := by omega
      have hihs := ih _ hlen hgs
      have hiso := tryMatchAt_ws_nl hp'ws (q ++ l.dropWhile isSpaceChar)
      rw [hihs] at hiso
      rw [hldec]
      cases htry : tryMatchAt (line0 W ++ '\n' :: (q ++ l.dropWhile isSpaceChar)) with
      | none => rfl
      | some n =>
        rw [htry] at hiso
        cases hiso
    · cases hres : tryMatchAt l with
      | none => rfl
      | some n =>
        exfalso
        simp only [tryMatchAt] at hres
        by_cases hd0 : ((l.dropWhile isSpaceChar).takeWhile isDigitChar).length = 0
        · rw [if_pos hd0] at hres
          cases hres
        · rw [if_neg hd0] at hres
          cases hm : matchTailWs ((l.dropWhile isSpaceChar).dropWhile isDigitChar) with
          | none =>
            rw [hm] at hres
            cases hres
          | some w2 =>
            set A := l.takeWhile isSpaceChar with hA
            set D := (l.dropWhile isSpaceChar).takeWhile isDigitChar with hD
            set R := (l.dropWhile isSpaceChar).dropWhile isDigitChar with hR
            have hAws : ∀ c ∈ A, isSpaceChar c = true := fun c hc => List.mem_takeWhile_imp hc
            have hAnl : ∀ c ∈ A, ¬(c = '\n') := fun c hc hcn => hnl (hcn ▸ hc)
            have hDdig : ∀ c ∈ D, isDigitChar c = true := fun c hc => List.mem_takeWhile_imp hc
            have hDne : D ≠ [] := by
              intro hDnil
              rw [hDnil] at hd0
              simp at hd0
            have ht1 := matchTailWs_take_ws hm
            have ht2 := matchTailWs_drop hm
            have hldec : l = A ++ (D ++ R) := by
              rw [hA, hD, hR, List.takeWhile_append_dropWhile, List.takeWhile_append_dropWhile]
            have hu' : ∀ c ∈ R.takeWhile (fun c => ¬(c = '\n')), isSpaceChar c = true := by
              have hwd := takeWhile_ws_of_ws_dollar ht1 ht2
              rw [List.take_append_drop] at hwd
              exact hwd
            have hline : line0 l = A ++ (D ++ R.takeWhile (fun c => ¬(c = '\n'))) := by
              rw [line0]
              conv_lhs => rw [hldec]
              rw [takeWhile_append_all (fun c hc => by simp [hAnl c hc]),
                takeWhile_append_all (fun c hc => by simp [ne_nl_of_digit (hDdig c hc)])]
            have hnum : numericLine (line0 l) = true := by
              rw [hline, ← List.append_assoc]
              exact numericLine_of_ws_digits hAws hu' hDne hDdig
            have hfalse := hg (line0 l) (line0_mem_splitNL l)
            rw [hnum] at hfalse
            cases hfalse

theorem subScan_nil (b : Bool) : subScan [] b = [] := rfl

theorem subScan_cons_false (c : Char) (rest : List Char) :
    subScan (c :: rest) false = c :: subScan rest (c = '\n') := rfl

theorem subScan_cons_true_none {c : Char} {rest : List Char}
    (h : tryMatchAt (c :: rest) = none) :
    subScan (c :: rest) true = c :: subScan rest (c = '\n') := by
  rw [subScan, subScanGo, if_pos rfl, h]
  rfl

theorem subScan_cons_true_some {c : Char} {rest : List Char} {n : ℕ}
    (h : tryMatchAt (c :: rest) = some n) :
    subScan (c :: rest) true = subScanGo rest (n - 1) (c = '\n') := by
  rw [subScan, subScanGo, if_pos rfl, h]

theorem flagAfter_nil (b : Bool) : flagAfter [] b = b := rfl

theorem flagAfter_cons (c : Char) (w : List Char) (b : Bool) :
    flagAfter (c :: w) b = flagAfter w (c = '\n') := by
  cases w with
  | nil => rfl
  | cons d w' =>
    rw [flagAfter, flagAfter, List.getLast?_cons_cons]
    cases hgl : (d :: w').getLast? with
    | some e => rfl
    | none => exact absurd hgl (by simp)

theorem subScanGo_skip : ∀ (w v : List Char) (b : Bool),
    subScanGo (w ++ v) w.length b = subScan v (flagAfter w b) := by
  intro w
  induction w with
  | nil => intro v b; rfl
  | cons c w' ih =>
    intro v b
    rw [List.cons_append, List.length_cons]
    show subScanGo (w' ++ v) w'.length (c = '\n') = _
    rw [ih, flagAfter_cons]

theorem subScanGo_skip' (w v : List Char) (b : Bool) {k : ℕ} (hk : k = w.length) :
    subScanGo (w ++ v) k b = subScan v (flagAfter w b) := by
  subst hk
  exact subScanGo_skip w v b

theorem subScan_false_no_nl {l : List Char} (h : restAfter l = []) : subScan l false = l := by
  induction l with
  | nil => rfl
  | cons c rest ih =>
    by_cases hc : c = '\n'
    · subst hc
      rw [restAfter_nl] at h
      cases h
    · rw [restAfter_cons hc] at h
      rw [subScan_cons_false, decide_eq_false hc, ih h]

theorem subScan_false_split {l r : List Char} (h : restAfter l = '\n' :: r) :
    subScan l false = line0 l ++ '\n' :: subScan r true := by
  induction l with
  | nil =>
    rw [restAfter_nil] at h
    cases h
  | cons c rest ih =>
    by_cases hc : c = '\n'
    · subst hc
      rw [restAfter_nl] at h
      injection h with _ h2
      rw [subScan_cons_false, line0_nl, List.nil_append, h2]
      norm_num
    · rw [restAfter_cons hc] at h
      rw [subScan_cons_false, decide_eq_false hc, ih h, line0_cons hc, List.cons_append]

theorem subScan_true_some_eq {c : Char} {rest : List Char} {n : ℕ}
    (h : tryMatchAt (c :: rest) = some n) :
    subScan (c :: rest) true
      = subScan ((c :: rest).drop n) (flagAfter ((c :: rest).take n) true) := by
  obtain ⟨h1, h2⟩ := tryMatchAt_pos h
  rw [subScan_cons_true_some h]
  obtain ⟨m, rfl⟩ : ∃ m, n = m + 1 := ⟨n - 1, by omega⟩
  simp only [List.drop_succ_cons, List.take_succ_cons, Nat.add_sub_cancel]
  rw [flagAfter_cons]
  have hm : m ≤ rest.length := by
    simp only [List.length_cons] at h2
    omega
  have hlt : (rest.take m).length = m := by
    rw [List.length_take]
    omega
  conv_lhs => rw [← List.take_append_drop m rest]
  exact subScanGo_skip' _ _ _ hlt.symm

theorem goodAll_nil_text : goodAll [] := by
  intro L hL
  simp only [splitNL, List.mem_singleton] at hL
  rw [hL]
  exact numericLine_nil

theorem length_restAfter_lt {l r : List Char} (h : restAfter l = '\n' :: r) :
    r.length < l.length := by
  have hlen : (line0 l).length + (restAfter l).length = l.length := by
    rw [← List.length_append, line0_append_restAfter]
  rw [h] at hlen
  simp only [List.length_cons] at hlen
  omega

theorem goodAll_subScan_true : ∀ (N : ℕ) (l : List Char), l.length ≤ N →
    goodAll (subScan l true) := by
  intro N
  induction N with
  | zero =>
    intro l hl
    have hln : l = [] := List.length_eq_zero.mp (Nat.le_zero.mp hl)
    subst hln
    rw [subScan_nil]
    exact goodAll_nil_text
  | succ N ih =>
    intro l hl
    cases l with
    | nil =>
      rw [subScan_nil]
      exact goodAll_nil_text
    | cons c rest =>
      simp only [List.length_cons] at hl
      cases htry : tryMatchAt (c :: rest) with
      | none =>
        rw [subScan_cons_true_none htry]
        by_cases hc : c = '\n'
        · subst hc
          rw [show (decide (('\n' : Char) = '\n')) = true by decide]
          intro L hL
          rw [splitNL_nl] at hL
          rcases List.mem_cons.mp hL with h1 | h1
          · rw [h1]
            exact numericLine_nil
          · exact ih rest (by omega) L h1
        · rw [decide_eq_false hc]
          rcases restAfter_shape rest with hsh | ⟨r, hsh⟩
          · rw [subScan_false_no_nl hsh]
            intro L hL
            have hnn : '\n' ∉ (c :: rest) := by
              intro hmem
              rcases List.mem_cons.mp hmem with h1 | h1
              · exact hc h1.symm
              · exact (restAfter_eq_nil_iff rest).mp hsh h1
            rw [splitNL_no_nl hnn] at hL
            simp only [List.mem_singleton] at hL
            subst hL
            cases hnum : numericLine (c :: rest) with
            | false => rfl
            | true =>
              exfalso
              have hline : line0 (c :: rest) = c :: rest := by
                rw [line0, List.takeWhile_eq_self_iff.mpr]
                intro x hx
                simp only [decide_eq_true_eq]
                intro hxn
                exact hnn (hxn ▸ hx)
              have hs := tryMatchAt_of_numericLine (l := c :: rest) (by rw [hline]; exact hnum)
              rw [htry] at hs
              cases hs
          · rw [subScan_false_split hsh]
            intro L hL
            rw [← List.cons_append] at hL
            have hnn1 : '\n' ∉ (c :: line0 rest) := by
              intro hmem
              rcases List.mem_cons.mp hmem with h1 | h1
              · exact hc h1.symm
              · have := List.mem_takeWhile_imp h1
                simp at this
            rw [splitNL_append_no_nl hnn1] at hL
            rcases List.mem_cons.mp hL with h1 | h1
            · subst h1
              cases hnum : numericLine (c :: line0 rest) with
              | false => rfl
              | true =>
                exfalso
                have hs := tryMatchAt_of_numericLine (l := c :: rest)
                  (by rw [line0_cons hc]; exact hnum)
                rw [htry] at hs
                cases hs
            · have hrlen : r.length ≤ N := by
                have := length_restAfter_lt hsh
                omega
              exact ih r hrlen L h1
      | some n =>
        rw [subScan_true_some_eq htry]
        obtain ⟨h1, h2⟩ := tryMatchAt_pos htry
        simp only [List.length_cons] at h2
        rcases tryMatchAt_drop htry with hdrop | ⟨r, hdrop⟩
        · rw [hdrop, subScan_nil]
          exact goodAll_nil_text
        · rw [hdrop]
          have hrlen : r.length + 1 ≤ N := by
            have hh : ((c :: rest).drop n).length = (c :: rest).length - n :=
              List.length_drop n (c :: rest)
            rw [hdrop] at hh
            simp only [List.length_cons] at hh
            omega
          cases hfl : flagAfter ((c :: rest).take n) true with
          | true => exact ih ('\n' :: r) (by simp only [List.length_cons]; omega)
          | false =>
            rw [subScan_false_split (restAfter_nl r), line0_nl, List.nil_append]
            intro L hL
            rw [splitNL_nl] at hL
            rcases List.mem_cons.mp hL with h1 | h1
            · rw [h1]
              exact numericLine_nil
            · exact ih r (by omega) L h1

/-- Step 1 of the normalizer never leaves a numeric line in its output. -/
theorem goodAll_removeDigitLines (l : List Char) : goodAll (removeDigitLines l) :=
  goodAll_subScan_true l.length l le_rfl

theorem subScan_eq_self : ∀ (N : ℕ) (l : List Char), l.length ≤ N → goodAll l →
    subScan l true = l := by
  intro N
  induction N with
  | zero =>
    intro l hl _
    have hln : l = [] := List.length_eq_zero.mp (Nat.le_zero.mp hl)
    subst hln
    rfl
  | succ N ih =>
    intro l hl hg
    cases l with
    | nil => rfl
    | cons c rest =>
      simp only [List.length_cons] at hl
      have htry : tryMatchAt (c :: rest) = none :=
        tryMatchAt_none_of_goodAll (N + 1) (c :: rest) (by simp only [List.length_cons]; omega) hg
      rw [subScan_cons_true_none htry]
      by_cases hc : c = '\n'
      · subst hc
        rw [show (decide (('\n' : Char) = '\n')) = true by decide]
        have hgr : goodAll rest := by
          intro L hL
          exact hg L (by rw [splitNL_nl]; exact List.mem_cons_of_mem _ hL)
        rw [ih rest (by omega) hgr]
      · rw [decide_eq_false hc]
        rcases restAfter_shape rest with hsh | ⟨r, hsh⟩
        · rw [subScan_false_no_nl hsh]
        · rw [subScan_false_split hsh]
          have hgr : goodAll r := by
            intro L hL
            apply hg
            have hnn1 : '\n' ∉ (c :: line0 rest) := by
              intro hmem
              rcases List.mem_cons.mp hmem with h1 | h1
              · exact hc h1.symm
              · have := List.mem_takeWhile_imp h1
                simp at this
            have hld : (c :: rest) = (c :: line0 rest) ++ '\n' :: r := by
              rw [List.cons_append]
              congr 1
              rw [← hsh, line0_append_restAfter]
            rw [hld, splitNL_append_no_nl hnn1]
            exact List.mem_cons_of_mem _ hL
          have hrlen : r.length ≤ N := by
            have := length_restAfter_lt hsh
            omega
          rw [ih r hrlen hgr]
          congr 1
          rw [show ('\n' :: r : List Char) = restAfter rest from hsh.symm, line0_append_restAfter]

/-- Step 1 of the normalizer is the identity on text with no numeric line. -/
theorem removeDigitLines_eq_self {l : List Char} (hg : goodAll l) :
    removeDigitLines l = l :=
  subScan_eq_self l.length l le_rfl hg

theorem splitNL_joinNL : ∀ (Ls : List (List Char)), Ls ≠ [] → (∀ L ∈ Ls, '\n' ∉ L) →
    splitNL (joinNL Ls) = Ls := by
  intro Ls
  induction Ls with
  | nil => intro h _; cases h rfl
  | cons L Ls' ih =>
    intro _ hnn
    cases Ls' with
    | nil =>
      rw [joinNL]
      exact splitNL_no_nl (hnn L (by simp))
    | cons M Ms =>
      rw [joinNL, splitNL_append_no_nl (hnn L (by simp)),
        ih (List.cons_ne_nil M Ms) (fun K hK => hnn K (by simp [hK]))]
      exact List.cons_ne_nil M Ms

theorem blankFirst_mem {t : String} : ∀ {Ls : List (List Char)} {L : List Char},
    L ∈ blankFirst t Ls → L = [] ∨ L ∈ Ls := by
  intro Ls
  induction Ls with
  | nil =>
    intro L h
    simp [blankFirst] at h
  | cons M Ms ih =>
    intro L h
    rw [blankFirst] at h
    by_cases hm : pyStrip (String.mk M) = t
    · rw [if_pos hm] at h
      rcases List.mem_cons.mp h with h1 | h1
      · exact Or.inl h1
      · exact Or.inr (List.mem_cons_of_mem _ h1)
    · rw [if_neg hm] at h
      rcases List.mem_cons.mp h with h1 | h1
      · exact Or.inr (h1 ▸ List.mem_cons_self _ _)
      · rcases ih h1 with h2 | h2
        · exact Or.inl h2
        · exact Or.inr (List.mem_cons_of_mem _ h2)

theorem blankFirst_ne_nil {t : String} {Ls : List (List Char)} (h : Ls ≠ []) :
    blankFirst t Ls ≠ [] := by
  cases Ls with
  | nil => cases h rfl
  | cons M Ms =>
    rw [blankFirst]
    by_cases hm : pyStrip (String.mk M) = t
    · rw [if_pos hm]
      simp
    · rw [if_neg hm]
      simp

theorem goodAll_removeTitleDup {l : List Char} (hg : goodAll l) (topt : Option String) :
    goodAll (removeTitleDup l topt) := by
  cases topt with
  | none => exact hg
  | some t =>
    simp only [removeTitleDup]
    by_cases ht : t = ""
    · rw [if_pos (by simp [ht])]
      exact hg
    · rw [if_neg (by simp [ht])]
      cases hf : (splitNL l).filter (fun L => pyStrip (String.mk L) ≠ "") with
      | nil => exact hg
      | cons fl fls =>
        show goodAll
          (if pyStrip (String.mk fl) = bareTitle t ∨ pyStrip (String.mk fl) = t then
            joinNL (blankFirst (pyStrip (String.mk fl)) (splitNL l))
          else l)
        by_cases hcond : pyStrip (String.mk fl) = bareTitle t ∨ pyStrip (String.mk fl) = t
        · rw [if_pos hcond]
          have hnn : ∀ L ∈ blankFirst (pyStrip (String.mk fl)) (splitNL l), '\n' ∉ L := by
            intro L hL
            rcases blankFirst_mem hL with h1 | h1
            · rw [h1]
              simp
            · exact nl_not_mem_of_mem_splitNL h1
          intro L hL
          rw [splitNL_joinNL _ (blankFirst_ne_nil (splitNL_ne_nil l)) hnn] at hL
          rcases blankFirst_mem hL with h1 | h1
          · rw [h1]
            exact numericLine_nil
          · exact hg L h1
        · rw [if_neg hcond]
          exact hg

theorem line0_collapse_zero : ∀ (l : List Char), line0 (collapseGo 0 l) = line0 l := by
  intro l
  induction l with
  | nil => rfl
  | cons c rest ih =>
    by_cases hc : c = '\n'
    · subst hc
      rw [collapseGo, if_pos rfl, if_neg (by omega), line0_nl, line0_nl]
    · rw [collapseGo, if_neg hc, line0_cons hc, line0_cons hc, ih]

theorem collapse_line0_mem : ∀ (l : List Char) (k : ℕ),
    line0 (collapseGo k l) = [] ∨ line0 (collapseGo k l) ∈ splitNL l := by
  intro l
  induction l with
  | nil => intro k; exact Or.inl rfl
  | cons c rest ih =>
    intro k
    by_cases hc : c = '\n'
    · subst hc
      rw [collapseGo, if_pos rfl]
      by_cases hk : 2 ≤ k
      · rw [if_pos hk]
        rcases ih (k + 1) with h1 | h1
        · exact Or.inl h1
        · right
          rw [splitNL_nl]
          exact List.mem_cons_of_mem _ h1
      · rw [if_neg hk]
        exact Or.inl (line0_nl _)
    · rw [collapseGo, if_neg hc]
      right
      rw [line0_cons hc, line0_collapse_zero, ← line0_cons hc]
      exact line0_mem_splitNL _

theorem collapse_tail_mem : ∀ (l : List Char) (k : ℕ) (L : List Char),
    L ∈ (splitNL (collapseGo k l)).tail → L = [] ∨ L ∈ (splitNL l).tail := by
  intro l
  induction l with
  | nil =>
    intro k L hL
    simp [collapseGo, splitNL] at hL
  | cons c rest ih =>
    intro k L hL
    by_cases hc : c = '\n'
    · subst hc
      rw [collapseGo, if_pos rfl] at hL
      by_cases hk : 2 ≤ k
      · rw [if_pos hk] at hL
        rcases ih (k + 1) L hL with h1 | h1
        · exact Or.inl h1
        · right
          rw [splitNL_nl, List.tail_cons]
          exact List.mem_of_mem_tail h1
      · rw [if_neg hk, splitNL_nl, List.tail_cons] at hL
        rw [splitNL_eq_cons (collapseGo (k + 1) rest)] at hL
        rcases List.mem_cons.mp hL with h1 | h1
        · subst h1
          rcases collapse_line0_mem rest (k + 1) with h2 | h2
          · exact Or.inl h2
          · right
            rw [splitNL_nl, List.tail_cons]
            exact h2
        · rcases ih (k + 1) L h1 with h2 | h2
          · exact Or.inl h2
          · right
            rw [splitNL_nl, List.tail_cons]
            exact List.mem_of_mem_tail h2
    · rw [collapseGo, if_neg hc, splitNL_cons_tail hc] at hL
      rcases ih 0 L hL with h1 | h1
      · exact Or.inl h1
      · right
        rw [splitNL_cons_tail hc]
        exact h1

theorem goodAll_collapse {l : List Char} (hg : goodAll l) : goodAll (collapseGo 0 l) := by
  intro L hL
  rw [splitNL_eq_cons (collapseGo 0 l)] at hL
  rcases List.mem_cons.mp hL with h1 | h1
  · subst h1
    rw [line0_collapse_zero]
    exact hg _ (line0_mem_splitNL l)
  · rcases collapse_tail_mem l 0 L h1 with h2 | h2
    · rw [h2]
      exact numericLine_nil
    · exact hg L (List.mem_of_mem_tail h2)

theorem lines_dropWhile_ws : ∀ (y : List Char) (L : List Char),
    L ∈ splitNL (y.dropWhile isSpaceChar) → ∃ M ∈ splitNL y, stripL L = stripL M := by
  intro y
  induction y with
  | nil =>
    intro L hL
    exact ⟨L, hL, rfl⟩
  | cons c y' ih =>
    intro L hL
    by_cases hws : isSpaceChar c = true
    · rw [List.dropWhile_cons, if_pos hws] at hL
      obtain ⟨M, hM, hsM⟩ := ih L hL
      by_cases hc : c = '\n'
      · subst hc
        exact ⟨M, by rw [splitNL_nl]; exact List.mem_cons_of_mem _ hM, hsM⟩
      · rw [splitNL_eq_cons y'] at hM
        rcases List.mem_cons.mp hM with h1 | h1
        · subst h1
          refine ⟨c :: line0 y', ?_, ?_⟩
          · rw [splitNL_eq_cons (c :: y'), line0_cons hc]
            exact List.mem_cons_self _ _
          · rw [hsM, show (c :: line0 y' : List Char) = [c] ++ line0 y' from rfl,
              stripL_ws_left (by intro d hd; simp at hd; rw [hd]; exact hws)]
        · refine ⟨M, ?_, hsM⟩
          rw [splitNL_eq_cons (c :: y'), splitNL_cons_tail hc]
          exact List.mem_cons_of_mem _ h1
    · rw [List.dropWhile_cons, if_neg hws] at hL
      exact ⟨L, hL, rfl⟩

theorem line0_append_ws : ∀ (x : List Char) {w2 : List Char},
    (∀ c ∈ w2, isSpaceChar c = true) →
    ∃ w', (∀ c ∈ w', isSpaceChar c = true) ∧ line0 (x ++ w2) = line0 x ++ w' := by
  intro x
  induction x with
  | nil =>
    intro w2 hw2
    refine ⟨line0 w2, ?_, by rw [List.nil_append, line0_nil, List.nil_append]⟩
    intro c hc
    exact hw2 c (List.Sublist.mem hc (List.takeWhile_sublist _))
  | cons c x' ih =>
    intro w2 hw2
    by_cases hc : c = '\n'
    · subst hc
      refine ⟨[], by simp, ?_⟩
      rw [List.cons_append, line0_nl, line0_nl, List.nil_append]
    · obtain ⟨w', hw', heq⟩ := ih hw2
      refine ⟨w', hw', ?_⟩
      rw [List.cons_append, line0_cons hc, line0_cons hc, heq, List.cons_append]

theorem tail_lines_append_ws : ∀ (x : List Char) {w2 : List Char},
    (∀ c ∈ w2, isSpaceChar c = true) →
    ∀ L ∈ (splitNL x).tail, ∃ M ∈ (splitNL (x ++ w2)).tail, stripL L = stripL M := by
  intro x
  induction x with
  | nil =>
    intro w2 _ L hL
    simp [splitNL] at hL
  | cons c x' ih =>
    intro w2 hw2 L hL
    by_cases hc : c = '\n'
    · subst hc
      rw [splitNL_nl, List.tail_cons] at hL
      rw [List.cons_append, splitNL_nl, List.tail_cons]
      rw [splitNL_eq_cons x'] at hL
      rcases List.mem_cons.mp hL with h1 | h1
      · subst h1
        obtain ⟨w', hw', heq⟩ := line0_append_ws x' hw2
        refine ⟨line0 (x' ++ w2), line0_mem_splitNL _, ?_⟩
        rw [heq, stripL_ws_right hw']
      · obtain ⟨M, hM, hsM⟩ := ih hw2 L h1
        exact ⟨M, List.mem_of_mem_tail hM, hsM⟩
    · rw [splitNL_cons_tail hc] at hL
      rw [List.cons_append, splitNL_cons_tail hc]
      exact ih hw2 L hL

theorem goodAll_of_append_ws {x : List Char} (w2 : List Char) (hw2 : ∀ c ∈ w2, isSpaceChar c = true)
    (hg : goodAll (x ++ w2)) : goodAll x := by
  intro L hL
  rw [splitNL_eq_cons x] at hL
  rcases List.mem_cons.mp hL with h1 | h1
  · subst h1
    obtain ⟨w', hw', heq⟩ := line0_append_ws x hw2
    have h2 := hg (line0 (x ++ w2)) (line0_mem_splitNL _)
    have h3 : numericLine (line0 x) = numericLine (line0 (x ++ w2)) :=
      numericLine_congr (by rw [heq, stripL_ws_right hw'])
    rw [h3]
    exact h2
  · obtain ⟨M, hM, hsM⟩ := tail_lines_append_ws x hw2 L h1
    rw [numericLine_congr hsM]
    exact hg M (List.mem_of_mem_tail hM)

theorem goodAll_stripL {l : List Char} (hg : goodAll l) : goodAll (stripL l) := by
  have hg1 : goodAll (l.dropWhile isSpaceChar) := by
    intro L hL
    obtain ⟨M, hM, hsM⟩ := lines_dropWhile_ws l L hL
    rw [numericLine_congr hsM]
    exact hg M hM
  rw [stripL_eq_rdrop]
  apply goodAll_of_append_ws ((l.dropWhile isSpaceChar).rtakeWhile isSpaceChar)
    (fun c hc => List.mem_rtakeWhile_imp hc)
  rw [rdrop_append_rtake]
  exact hg1

/-- The normalized text never contains a numeric (page-number) line. -/
theorem goodAll_t2mL (l : List Char) (title : Option String) :
    goodAll (text_to_markdownL l title) := by
  rw [text_to_markdownL]
  exact goodAll_stripL (goodAll_collapse (goodAll_removeTitleDup (goodAll_removeDigitLines l) title))

theorem hasTriple_iff : ∀ (l : List Char),
    hasTriple l = true ↔ ∃ u v, l = u ++ '\n' :: '\n' :: '\n' :: v := by
  have main : ∀ (N : ℕ) (l : List Char), l.length ≤ N →
      (hasTriple l = true ↔ ∃ u v, l = u ++ '\n' :: '\n' :: '\n' :: v) := by
    intro N
    induction N with
    | zero =>
      intro l hl
      have : l = [] := List.length_eq_zero.mp (Nat.le_zero.mp hl)
      subst this
      constructor
      · intro h
        cases h
      · rintro ⟨u, v, huv⟩
        have := congrArg List.length huv
        simp [List.length_append] at this
        omega
    | succ N ih =>
      intro l hl
      match l with
      | [] =>
        constructor
        · intro h
          cases h
        · rintro ⟨u, v, huv⟩
          have := congrArg List.length huv
          simp [List.length_append] at this
          omega
      | [c] =>
        constructor
        · intro h
          cases h
        · rintro ⟨u, v, huv⟩
          have := congrArg List.length huv
          simp [List.length_append] at this
          omega
      | [c, d] =>
        constructor
        · intro h
          cases h
        · rintro ⟨u, v, huv⟩
          have := congrArg List.length huv
          simp [List.length_append] at this
          omega
      | c1 :: c2 :: c3 :: rest =>
        simp only [List.length_cons] at hl
        rw [hasTriple]
        constructor
        · intro h
          rcases Bool.or_eq_true_iff.mp h with h1 | h1
          · refine ⟨[], rest, ?_⟩
            simp only [Bool.and_eq_true, decide_eq_true_eq] at h1
            rw [List.nil_append, h1.1.1, h1.1.2, h1.2]
          · obtain ⟨u, v, huv⟩ := (ih (c2 :: c3 :: rest) (by simp only [List.length_cons]; omega)).mp h1
            exact ⟨c1 :: u, v, by rw [List.cons_append, ← huv]⟩
        · rintro ⟨u, v, huv⟩
          cases u with
          | nil =>
            apply Bool.or_eq_true_iff.mpr
            left
            rw [List.nil_append] at huv
            injection huv with e1 huv
            injection huv with e2 huv
            injection huv with e3 _
            subst e1; subst e2; subst e3
            simp
          | cons a u' =>
            apply Bool.or_eq_true_iff.mpr
            right
            rw [List.cons_append] at huv
            injection huv with _ huv
            exact (ih (c2 :: c3 :: rest) (by simp only [List.length_cons]; omega)).mpr ⟨u', v, huv⟩
  intro l
  exact main l.length l le_rfl

theorem hasTriple_suffix {u v : List Char} (h : hasTriple (u ++ v) = false) :
    hasTriple v = false := by
  cases htv : hasTriple v with
  | false => rfl
  | true =>
    obtain ⟨a, b, hab⟩ := (hasTriple_iff v).mp htv
    have : hasTriple (u ++ v) = true :=
      (hasTriple_iff _).mpr ⟨u ++ a, b, by rw [hab, List.append_assoc]⟩
    rw [this] at h
    cases h

theorem hasTriple_cons_iff (c : Char) (x : List Char) :
    hasTriple (c :: x) = true ↔ (c = '\n' ∧ x.take 2 = ['\n', '\n']) ∨ hasTriple x = true := by
  constructor
  · intro h
    obtain ⟨u, v, huv⟩ := (hasTriple_iff _).mp h
    cases u with
    | nil =>
      left
      rw [List.nil_append] at huv
      injection huv with e1 huv
      subst e1
      rw [huv]
      exact ⟨rfl, rfl⟩
    | cons a u' =>
      right
      rw [List.cons_append] at huv
      injection huv with _ huv
      exact (hasTriple_iff _).mpr ⟨u', v, huv⟩
  · rintro (⟨hc, ht⟩ | h)
    · subst hc
      apply (hasTriple_iff _).mpr
      refine ⟨[], x.drop 2, ?_⟩
      rw [List.nil_append]
      congr 1
      conv_lhs => rw [← List.take_append_drop 2 x]
      rw [ht]
      rfl
    · obtain ⟨u, v, huv⟩ := (hasTriple_iff _).mp h
      exact (hasTriple_iff _).mpr ⟨c :: u, v, by rw [List.cons_append, huv]⟩

theorem leadNL_cons_nl (x : List Char) : leadNL ('\n' :: x) = leadNL x + 1 := by
  rw [leadNL, leadNL, List.takeWhile_cons, if_pos (by simp)]
  simp

theorem leadNL_cons_other {c : Char} (h : ¬(c = '\n')) (x : List Char) :
    leadNL (c :: x) = 0 := by
  rw [leadNL, List.takeWhile_cons, if_neg (by simp [h])]
  rfl

theorem take2_ne_of_leadNL {x : List Char} (h : leadNL x ≤ 1) : x.take 2 ≠ ['\n', '\n'] := by
  intro ht
  match x, ht with
  | a :: x1, ht =>
    match x1, ht with
    | b :: x2, ht =>
      rw [show (2 : ℕ) = 1 + 1 from rfl, List.take_succ_cons, List.take_succ_cons] at ht
      injection ht with e1 ht
      injection ht with e2 _
      subst e1
      subst e2
      rw [leadNL_cons_nl, leadNL_cons_nl] at h
      omega

theorem collapse_bound : ∀ (l : List Char) (k : ℕ),
    leadNL (collapseGo k l) ≤ 2 - min k 2 ∧ hasTriple (collapseGo k l) = false := by
  intro l
  induction l with
  | nil =>
    intro k
    exact ⟨by simp [collapseGo, leadNL], rfl⟩
  | cons c rest ih =>
    intro k
    by_cases hc : c = '\n'
    · subst hc
      rw [collapseGo, if_pos rfl]
      by_cases hk : 2 ≤ k
      · rw [if_pos hk]
        have hih := ih (k + 1)
        refine ⟨le_trans hih.1 ?_, hih.2⟩
        have h1 : min (k + 1) 2 = 2 := by omega
        have h2 : min k 2 = 2 := by omega
        rw [h1, h2]
      · rw [if_neg hk]
        have hih := ih (k + 1)
        have hlead : leadNL (collapseGo (k + 1) rest) ≤ 1 := by
          have h1 : 2 - min (k + 1) 2 ≤ 1 := by omega
          exact le_trans hih.1 h1
        constructor
        · rw [leadNL_cons_nl]
          have h2 : min k 2 = k := by omega
          have h3 : 2 - min (k + 1) 2 ≤ 1 - k := by omega
          have := le_trans hih.1 h3
          rw [h2]
          omega
        · cases htr : hasTriple ('\n' :: collapseGo (k + 1) rest) with
          | false => rfl
          | true =>
            exfalso
            rcases (hasTriple_cons_iff _ _).mp htr with ⟨_, ht2⟩ | h1
            · exact take2_ne_of_leadNL hlead ht2
            · rw [hih.2] at h1
              cases h1
    · rw [collapseGo, if_neg hc]
      constructor
      · rw [leadNL_cons_other hc]
        omega
      · cases htr : hasTriple (c :: collapseGo 0 rest) with
        | false => rfl
        | true =>
          exfalso
          rcases (hasTriple_cons_iff _ _).mp htr with ⟨hcnl, _⟩ | h1
          · exact hc hcnl
          · rw [(ih 0).2] at h1
            cases h1

theorem collapse_id_of_noTriple : ∀ (l : List Char) (k : ℕ),
    hasTriple (List.replicate k '\n' ++ l) = false → collapseGo k l = l := by
  intro l
  induction l with
  | nil => intro k _; rfl
  | cons c rest ih =>
    intro k h
    by_cases hc : c = '\n'
    · subst hc
      rw [collapseGo, if_pos rfl]
      by_cases hk : 2 ≤ k
      · exfalso
        have htr : hasTriple (List.replicate k '\n' ++ '\n' :: rest) = true := by
          apply (hasTriple_iff _).mpr
          refine ⟨List.replicate (k - 2) '\n', rest, ?_⟩
          rw [show k = (k - 2) + 2 by omega, List.replicate_add]
          simp [List.append_assoc, List.replicate_succ]
        rw [htr] at h
        cases h
      · rw [if_neg hk]
        rw [ih (k + 1) (by
          rw [List.replicate_succ', List.append_assoc, List.singleton_append]
          exact h)]
    · rw [collapseGo, if_neg hc]
      have hrest : hasTriple rest = false := by
        have h1 : hasTriple (c :: rest) = false := hasTriple_suffix h
        exact hasTriple_suffix (u := [c]) h1
      rw [ih 0 hrest]

theorem hasTriple_stripL {l : List Char} (h : hasTriple l = false) :
    hasTriple (stripL l) = false := by
  obtain ⟨w1, w2, _, _, hdec⟩ := stripL_decomp l
  cases ht : hasTriple (stripL l) with
  | false => rfl
  | true =>
    exfalso
    obtain ⟨a, b, hab⟩ := (hasTriple_iff _).mp ht
    have htr : hasTriple l = true := by
      apply (hasTriple_iff _).mpr
      refine ⟨w1 ++ a, b ++ w2, ?_⟩
      rw [hdec, hab]
      simp [List.append_assoc]
    rw [htr] at h
    cases h

theorem removeTitleDup_id {l : List Char} {title : Option String}
    (h : ∀ t, title = some t → t ≠ "" →
      ∀ fl, ((splitNL l).filter (fun L => pyStrip (String.mk L) ≠ "")).head? = some fl →
        pyStrip (String.mk fl) ≠ bareTitle t ∧ pyStrip (String.mk fl) ≠ t) :
    removeTitleDup l title = l := by
  cases title with
  | none => rfl
  | some t =>
    simp only [removeTitleDup]
    by_cases ht : t = ""
    · rw [if_pos (by simp [ht])]
    · rw [if_neg (by simp [ht])]
      cases hf : (splitNL l).filter (fun L => pyStrip (String.mk L) ≠ "") with
      | nil => rfl
      | cons fl fls =>
        show (if pyStrip (String.mk fl) = bareTitle t ∨ pyStrip (String.mk fl) = t then
            joinNL (blankFirst (pyStrip (String.mk fl)) (splitNL l))
          else l) = l
        rw [if_neg]
        rintro (h1 | h1)
        · exact (h t rfl ht fl (by rw [hf]; rfl)).1 h1
        · exact (h t rfl ht fl (by rw [hf]; rfl)).2 h1

/-- C3 (amended): text normalization is idempotent provided the first
non-blank line of the normalized text differs from both the full section
title and the title with its numeric prefix stripped (in particular whenever
no non-empty title is supplied): for such inputs, applying
`text_to_markdown` a second time with the same title returns the first
result unchanged.  When the body repeats the title line, the second
application removes the duplicate again, so unrestricted idempotence fails. -/
theorem C3_normalize_idempotent (text : String) (title : Option String)
    (h : ∀ t, title = some t → t ≠ "" →
      ∀ fl, ((splitNL (text_to_markdown text title).data).filter
          (fun L => pyStrip (String.mk L) ≠ "")).head? = some fl →
        pyStrip (String.mk fl) ≠ bareTitle t ∧ pyStrip (String.mk fl) ≠ t) :
    text_to_markdown (text_to_markdown text title) title = text_to_markdown text title := by
  have hgs : goodAll (text_to_markdownL text.data title) := goodAll_t2mL text.data title
  have h1 : removeDigitLines (text_to_markdownL text.data title)
      = text_to_markdownL text.data title := removeDigitLines_eq_self hgs
  have h2 : removeTitleDup (text_to_markdownL text.data title) title
      = text_to_markdownL text.data title := removeTitleDup_id h
  have h3 : collapseGo 0 (text_to_markdownL text.data title)
      = text_to_markdownL text.data title := by
    apply collapse_id_of_noTriple _ 0
    rw [show (List.replicate 0 '\n' : List Char) = [] from rfl, List.nil_append,
      text_to_markdownL]
    exact hasTriple_stripL (collapse_bound _ 0).2
  have h4 : stripL (text_to_markdownL text.data title) = text_to_markdownL text.data title := by
    rw [text_to_markdownL]
    exact stripL_idem _
  show String.mk (text_to_markdownL (text_to_markdown text title).data title)
      = text_to_markdown text title
  rw [show (text_to_markdown text title).data = text_to_markdownL text.data title from rfl]
  rw [show text_to_markdownL (text_to_markdownL text.data title) title
      = stripL (collapseGo 0 (removeTitleDup
          (removeDigitLines (text_to_markdownL text.data title)) title)) from rfl]
  rw [h1, h2, h3, h4]
  rfl

/-- Witness for C3 on a concrete text whose first line differs from the
title. -/
theorem C3_normalize_idempotent_witness :
    text_to_markdown (text_to_markdown "Body text." (some "3.9.5 Keep Alive"))
        (some "3.9.5 Keep Alive")
      = text_to_markdown "Body text." (some "3.9.5 Keep Alive") :=
  C3_normalize_idempotent "Body text." (some "3.9.5 Keep Alive")
    (by
      intro t ht htne fl hfl
      injection ht with ht'
      subst ht'
      have hcomp : ((splitNL (text_to_markdown "Body text."
            (some "3.9.5 Keep Alive")).data).filter
          (fun L => pyStrip (String.mk L) ≠ "")).head? = some "Body text.".data := rfl
      rw [hcomp] at hfl
      injection hfl with h2
      subst h2
      exact ⟨by decide, by decide⟩)

/-- C3 counterexample: a text that repeats the title line is normalized to a
text that still starts with the title line, and the second application
removes it again — `text_to_markdown` is not idempotent as claimed. -/
theorem C3_counterexample :
    text_to_markdown "Keep Alive\nKeep Alive\nBody." (some "3.9.5 Keep Alive")
        = "Keep Alive\nBody."
    ∧ text_to_markdown (text_to_markdown "Keep Alive\nKeep Alive\nBody."
          (some "3.9.5 Keep Alive")) (some "3.9.5 Keep Alive")
        = "Body."
    ∧ ("Body." : String) ≠ "Keep Alive\nBody." := by
  refine ⟨rfl, rfl, by decide⟩

end NVMeSpec
